import Mathlib

/-!
Verification of the ESG knowledge-graph pipeline:
shallow Lean embedding of `src/01_data_extractor.py` (identity
normalizer, graph merger, checkpointed batch loop, batch serialization),
`src/02_neo4j_uploader.py` (MERGE-based loader), and
`src/04_engine_interface.py` (query gateway), together with theorems
settling the frozen specification claims.

Python strings are modelled as Lean `String` (list of characters); the
character classes of Python's `\w` / `\s` regex classes and `str.strip`
are modelled at their ASCII fragment.  A missing value (`None` / NaN,
i.e. `pd.isna`) is modelled as `Option.none`; note that in Python
`pd.isna("") = False`, and the embedding keeps the empty string distinct
from the missing value.  Python `dict`s are modelled as
insertion-ordered association lists: assigning to an existing key
overwrites in place, assigning a fresh key appends.
-/

set_option maxRecDepth 8000
set_option maxHeartbeats 1000000

namespace Spec2Proof

/-! ### Python dict model -/

/-- Python `k in m` for an insertion-ordered dict. -/
def hasKey {α : Type} : List (String × α) → String → Bool
  | [], _ => false
  | p :: m, k => decide (p.1 = k) || hasKey m k

/-- Python `m.get(k)` (first — and, for dicts built by `dictInsert`, unique — binding). -/
def dictGet {α : Type} : List (String × α) → String → Option α
  | [], _ => none
  | p :: m, k => if p.1 = k then some p.2 else dictGet m k

/-- Python `m[k] = v`: overwrite in place if the key exists, else append. -/
def dictInsert {α : Type} (m : List (String × α)) (k : String) (v : α) : List (String × α) :=
  if hasKey m k then m.map (fun p => if p.1 = k then (k, v) else p)
  else m ++ [(k, v)]

/-! ### `normalize_id` (src/01_data_extractor.py lines 46-49) -/

/-- ASCII fragment of Python's regex class `\w` (word character). -/
def isWordChar (c : Char) : Bool := c.isAlphanum || c = '_'

/-- ASCII fragment of Python's regex class `\s` / `str.strip` whitespace. -/
def isSpaceChar (c : Char) : Bool :=
  c = ' ' || c = '\t' || c = '\n' || c = '\r' || c = '\x0b' || c = '\x0c'

/-- The cleaning chain `re.sub(r'[^\w\s]', '', name).strip().lower().replace(' ', '_')`:
drop characters that are neither word characters nor whitespace, strip
leading/trailing whitespace, lowercase, then replace every single space
character by an underscore. -/
def cleanName (s : String) : String :=
  let kept := s.data.filter (fun c => isWordChar c || isSpaceChar c)
  let stripped := ((kept.dropWhile isSpaceChar).reverse.dropWhile isSpaceChar).reverse
  let lowered := stripped.map Char.toLower
  String.mk (lowered.map (fun c => if c = ' ' then '_' else c))

/-- The function `normalize_id(label, name)`; `name = none` models `pd.isna(name)`. -/
def normalize_id (label : String) (name : Option String) : String :=
  match name with
  | none => label ++ "_unknown"
  | some s => label ++ "_" ++ cleanName s

/-! ### Spec-side normalizer variants, for refinement comparison (claim C5) -/

/-- Replace each maximal whitespace run by a single underscore
(the spec's wording: "replace internal whitespace runs with a single
underscore").  Fold keeps a flag recording whether the previous kept
character belonged to a whitespace run. -/
def collapseRuns (cs : List Char) : List Char :=
  (cs.foldl
    (fun (acc : List Char × Bool) c =>
      if isSpaceChar c then (if acc.2 then acc else (acc.1 ++ ['_'], true))
      else (acc.1 ++ [c], false))
    ([], false)).1

/-- The normalizer exactly as the spec's words describe it: strip
non-word non-whitespace characters, trim, lowercase, replace internal
whitespace runs with a single underscore, prepend `label ++ "_"`. -/
def normalize_id_spec (label : String) (name : Option String) : String :=
  match name with
  | none => label ++ "_unknown"
  | some s =>
    let kept := s.data.filter (fun c => isWordChar c || isSpaceChar c)
    let stripped := ((kept.dropWhile isSpaceChar).reverse.dropWhile isSpaceChar).reverse
    let lowered := stripped.map Char.toLower
    label ++ "_" ++ String.mk (collapseRuns lowered)

/-- Replace each single space character with an underscore, written as a
left fold (the amended wording of claim C5). -/
def replaceSpaces (cs : List Char) : List Char :=
  cs.foldl (fun acc c => acc ++ [if c = ' ' then '_' else c]) []

/-- The amended spec wording for the non-missing branch of the
normalizer: as `normalize_id_spec`, but each space character is
individually replaced by an underscore. -/
def normalize_id_amended (label : String) (s : String) : String :=
  let kept := s.data.filter (fun c => isWordChar c || isSpaceChar c)
  let stripped := ((kept.dropWhile isSpaceChar).reverse.dropWhile isSpaceChar).reverse
  let lowered := stripped.map Char.toLower
  label ++ "_" ++ String.mk (replaceSpaces lowered)

/-! ### Graph data model (src/01_data_extractor.py lines 31-43) -/

/-- A node dict `{id, label, name}`; `name = none` models a NaN/null name. -/
structure NodeObj where
  id : String
  label : String
  name : Option String
deriving DecidableEq

/-- A relationship dict `{type, start_node_id, end_node_id}` (the
pydantic `Relationship` model has exactly these three fields, so merged
relationships carry no further properties). -/
structure RelObj where
  type : String
  start_node_id : String
  end_node_id : String
deriving DecidableEq

/-- One batch's raw extraction output (`GraphResponse.dict()`); a
missing `nodes`/`relationships` key behaves as the empty list. -/
structure Chunk where
  nodes : List NodeObj
  relationships : List RelObj
deriving DecidableEq

/-! ### `merge_graphs` (src/01_data_extractor.py lines 51-77).
A falsy chunk (`if not chunk: continue`) is modelled as `Option.none`. -/

/-- The batch-local `id_map`: `id_map[old_id] = normalize_id(label, name)`
for every node of the chunk, in order. -/
def buildIdMap (nodes : List NodeObj) : List (String × String) :=
  nodes.foldl (fun m node => dictInsert m node.id (normalize_id node.label node.name)) []

/-- The node loop: `combined_nodes[new_id] = {"id": new_id, "label": ..., "name": ...}`. -/
def insertNodes (m : List (String × NodeObj)) (nodes : List NodeObj) :
    List (String × NodeObj) :=
  nodes.foldl
    (fun m node =>
      let new_id := normalize_id node.label node.name
      dictInsert m new_id ⟨new_id, node.label, node.name⟩) m

/-- Rewrite one relationship's endpoints through the batch-local map,
falling back to the raw id when the id is not in the map
(`id_map.get(x, x)`). -/
def rewriteRel (id_map : List (String × String)) (rel : RelObj) : RelObj :=
  { type := rel.type
    start_node_id := (dictGet id_map rel.start_node_id).getD rel.start_node_id
    end_node_id := (dictGet id_map rel.end_node_id).getD rel.end_node_id }

/-- State of the merge loop over `raw_data_list`. -/
structure MergeState where
  combined_nodes : List (String × NodeObj)
  combined_relationships : List RelObj
deriving DecidableEq

/-- Body of `for chunk in raw_data_list` in `merge_graphs`. -/
def processChunk (st : MergeState) (chunk : Option Chunk) : MergeState :=
  match chunk with
  | none => st
  | some c =>
    let id_map := buildIdMap c.nodes
    { combined_nodes := insertNodes st.combined_nodes c.nodes
      combined_relationships :=
        st.combined_relationships ++ c.relationships.map (rewriteRel id_map) }

/-- The merge loop over all chunks, started from empty state. -/
def mergeFold (raw_data_list : List (Option Chunk)) : MergeState :=
  raw_data_list.foldl processChunk ⟨[], []⟩

/-- The dedup key `(r['type'], r['start_node_id'], r['end_node_id'])`. -/
def relKey (r : RelObj) : String × String × String :=
  (r.type, r.start_node_id, r.end_node_id)

/-- The dedup loop: keep a rewritten relationship only if its key was
not seen before (`seen_rels` modelled as the list of seen keys). -/
def dedupRels (rels : List RelObj) : List RelObj :=
  (rels.foldl
    (fun (acc : List RelObj × List (String × String × String)) r =>
      if relKey r ∈ acc.2 then acc
      else (acc.1 ++ [r], acc.2 ++ [relKey r]))
    ([], [])).1

/-- Recursive form of the dedup loop, used in proofs and shown equal to
`dedupRels` from the empty seen-set. -/
def firstOccs : List (String × String × String) → List RelObj → List RelObj
  | _, [] => []
  | seen, r :: rs =>
    if relKey r ∈ seen then firstOccs seen rs
    else r :: firstOccs (seen ++ [relKey r]) rs

/-- The consolidated graph `{"nodes": ..., "relationships": ...}`. -/
structure ConsolidatedGraph where
  nodes : List NodeObj
  relationships : List RelObj
deriving DecidableEq

/-- The function `merge_graphs(raw_data_list)`. -/
def merge_graphs (raw_data_list : List (Option Chunk)) : ConsolidatedGraph :=
  let st := mergeFold raw_data_list
  { nodes := st.combined_nodes.map Prod.snd
    relationships := dedupRels st.combined_relationships }

/-- Re-reading a consolidated graph as one extraction chunk (the shape
needed to state merge idempotence, claim C10). -/
def ConsolidatedGraph.toChunk (g : ConsolidatedGraph) : Chunk :=
  ⟨g.nodes, g.relationships⟩

/-- All input nodes, in the order the merge loop visits them. -/
def allInputNodes (gs : List (Option Chunk)) : List NodeObj :=
  gs.flatMap (fun c => match c with | none => [] | some ch => ch.nodes)

/-- All relationships, rewritten through their own chunk's local map, in
the order the merge loop collects them. -/
def allRewrittenRels (gs : List (Option Chunk)) : List RelObj :=
  gs.flatMap (fun c =>
    match c with
    | none => []
    | some ch => ch.relationships.map (rewriteRel (buildIdMap ch.nodes)))

/-! ### The checkpointed batch loop (src/01_data_extractor.py lines 120-147) -/

/-- Index list of Python's `range(start, stop, step)` for positive step. -/
def pyRangeLen (start stop step : Nat) : Nat := (stop - start + step - 1) / step

/-- Python `range(start, stop, step)` for positive step. -/
def pyRange (start stop step : Nat) : List Nat :=
  (List.range (pyRangeLen start stop step)).map (fun j => start + j * step)

/-- Outcome of one batch's call to the external structured-extraction
collaborator: a chunk on success, or a raised exception. -/
inductive BatchOutcome where
  | success (g : Option Chunk)
  | failure
deriving DecidableEq

/-- The chunk recorded for a batch outcome (none for a failed batch). -/
def outcomeGraph : BatchOutcome → Option (Option Chunk)
  | .success g => some g
  | .failure => none

/-- State of the batch loop: the in-memory `all_raw_graphs` list and the
trace of checkpoint-file writes (each entry is the full list as written). -/
structure LoopState where
  all_raw_graphs : List (Option Chunk)
  persisted : List (List (Option Chunk))
deriving DecidableEq

/-- Body of the batch loop: on success, append the response and write
the whole checkpoint; on exception, print/sleep and continue (no state
change, no placeholder). -/
def processBatch (outcome : Nat → BatchOutcome) (st : LoopState) (i : Nat) : LoopState :=
  match outcome i with
  | .success g =>
    let graphs := st.all_raw_graphs ++ [g]
    { all_raw_graphs := graphs, persisted := st.persisted ++ [graphs] }
  | .failure => st

/-- The constant `BATCH_SIZE` from the script. -/
def BATCH_SIZE : Nat := 5

/-- The batch loop: resume offset `len(all_raw_graphs) * BATCH_SIZE`,
then `for i in range(processed_count, total_rows, BATCH_SIZE)`. -/
def extractionLoop (checkpoint : List (Option Chunk)) (total_rows batch_size : Nat)
    (outcome : Nat → BatchOutcome) : LoopState :=
  (pyRange (checkpoint.length * batch_size) total_rows batch_size).foldl
    (processBatch outcome) ⟨checkpoint, []⟩

/-- The chunks produced by the successful batches among `idxs`, in order. -/
def successGraphs (outcome : Nat → BatchOutcome) (idxs : List Nat) : List (Option Chunk) :=
  idxs.filterMap (fun i => outcomeGraph (outcome i))

/-! ### Batch serialization (src/01_data_extractor.py lines 133-136) -/

/-- Python's `sep.join(parts)`. -/
def joinSep (sep : String) : List String → String
  | [] => ""
  | [x] => x
  | x :: xs => x ++ sep ++ joinSep sep xs

/-- The row serialization `" / ".join(f"{col}: {val}" for col, val in row.items() if pd.notna(val))`:
one row's cells, missing cells dropped, joined on a single line. -/
def rowText (row : List (String × Option String)) : String :=
  joinSep " / " (row.filterMap (fun cv => cv.2.map (fun v => cv.1 ++ ": " ++ v)))

/-- The block `f"[Row {idx+1}]\n{row_text}\n\n"` for one row `(idx, cells)`. -/
def rowBlock (rc : Nat × List (String × Option String)) : String :=
  "[Row " ++ Nat.repr (rc.1 + 1) ++ "]\n" ++ rowText rc.2 ++ "\n\n"

/-- The `batch_text` accumulation loop over the batch's rows. -/
def batchText (batch : List (Nat × List (String × Option String))) : String :=
  batch.foldl (fun acc rc => acc ++ rowBlock rc) ""

/-- Split a character list at newline characters (used to state what
"lines" the serialized block consists of). -/
def splitNl : List Char → List (List Char)
  | [] => [[]]
  | c :: cs =>
    if c = '\n' then [] :: splitNl cs
    else
      match splitNl cs with
      | [] => [[c]]
      | l :: ls => (c :: l) :: ls

/-- The lines of a string (maximal newline-free segments). -/
def splitLines (s : String) : List String :=
  (splitNl s.data).map String.mk

/-- A string containing no newline character. -/
def nlFree (s : String) : Prop := ∀ c ∈ s.data, c ≠ '\n'

instance (s : String) : Decidable (nlFree s) :=
  inferInstanceAs (Decidable (∀ c ∈ s.data, c ≠ '\n'))

/-! ### Query gateway `generate_answer` (src/04_engine_interface.py lines 68-89) -/

/-- Result of a call into an external collaborator: a value, or a
raised exception carrying its message. -/
inductive ExtCall (α : Type) where
  | ok (val : α)
  | exn (msg : String)
deriving DecidableEq

/-- What `generate_answer` reads off `retriever.search`'s result:
`result.metadata.get("cypher", "")` and `getattr(result, 'items', [])`
(each item already rendered by `str`). -/
structure SearchResult where
  cypher : Option String
  items : List String
deriving DecidableEq

/-- The error-tagged answer string produced in the `except` branch. -/
def errorAnswer (e : String) : String := "❌ 분석 중 오류 발생: " ++ e

/-- The gateway `generate_answer(client, retriever, user_question)`: the retriever
search and the answer-synthesis chat call are the two external
collaborators; any exception from either is caught.  Returns
`(answer, cypher_used)` with `answer = none` modelling Python `None`. -/
def generate_answer (search : ExtCall SearchResult)
    (synthesize : List String → ExtCall String) : Option String × String :=
  match search with
  | .exn e => (some (errorAnswer e), "Error")
  | .ok result =>
    let cypher_used := result.cypher.getD ""
    if result.items.isEmpty then (none, cypher_used)
    else
      match synthesize result.items with
      | .exn e => (some (errorAnswer e), "Error")
      | .ok ans => (some ans, cypher_used)

/-! ### Graph loader (src/02_neo4j_uploader.py, `Neo4jCreateWriter.run`).
The Neo4j store itself is external to the repository; its MERGE/SET
semantics below are modelled from the spec: "Upsert: match-or-create-
then-update write", node upsert keyed by `(label, id)`, relationship
endpoint lookup by `id` alone, per-edge silent failure when an endpoint
is absent. -/

/-- A property map (string-valued for concreteness; the claims do not
depend on property value types). -/
abbrev Props := List (String × String)

/-- Cypher `SET x += $props`: set each listed key in order, keep other keys. -/
def updateProps (old new : Props) : Props :=
  new.foldl (fun acc kv => dictInsert acc kv.1 kv.2) old

/-- Last value bound to `k` in a property list. -/
def lastBind (p : Props) (k : String) : Option String :=
  ((p.filter (fun kv => decide (kv.1 = k))).getLast?).map Prod.snd

/-- Modelled from the spec: a stored node, keyed by `(label, id)`. -/
structure StoreNode where
  label : String
  id : String
  props : Props
deriving DecidableEq

/-- Modelled from the spec: a stored edge, keyed by its type and its two
endpoint node keys. -/
structure StoreRel where
  type : String
  startRef : String × String
  endRef : String × String
  props : Props
deriving DecidableEq

/-- Modelled from the spec: the graph store's state. -/
structure GraphStore where
  nodes : List StoreNode
  rels : List StoreRel
deriving DecidableEq

/-- A stored node's key in the MERGE clause: `(label, id)` present? -/
def hasNodeKey (ns : List StoreNode) (label id : String) : Bool :=
  ns.any (fun n => decide (n.label = label ∧ n.id = id))

/-- Modelled from the spec: `MERGE (n:Label {id: $id}) SET n += $props` —
match-or-create by `(label, id)`, then merge the properties in (a
created node starts from the empty property map and receives the
`SET`). -/
def mergeNodeOp (ns : List StoreNode) (label id : String) (props : Props) :
    List StoreNode :=
  if hasNodeKey ns label id then
    ns.map (fun n =>
      if n.label = label ∧ n.id = id then { n with props := updateProps n.props props }
      else n)
  else ns ++ [⟨label, id, updateProps [] props⟩]

/-- Label-agnostic endpoint lookup `MATCH (a {id: $id})`. -/
def findNodeById (ns : List StoreNode) (id : String) : Option StoreNode :=
  ns.find? (fun n => decide (n.id = id))

/-- The identity of a stored edge: its type plus the `(label, id)` keys
of its two endpoints. -/
abbrev RelRef := String × (String × String) × (String × String)

/-- Does a stored edge carry this edge identity? -/
def relMatch (k : RelRef) (r : StoreRel) : Bool :=
  decide (r.type = k.1 ∧ r.startRef = k.2.1 ∧ r.endRef = k.2.2)

/-- Modelled from the spec: resolve the edge write's endpoint matches —
`MATCH (a {id:$s}), (b {id:$e})` — into the edge identity, or `none`
when either endpoint is absent. -/
def resolveKey (N : List StoreNode) (type sid eid : String) : Option RelRef :=
  match findNodeById N sid, findNodeById N eid with
  | some a, some b => some (type, (a.label, a.id), (b.label, b.id))
  | _, _ => none

/-- Is an edge with this identity present? -/
def hasRelKey (R : List StoreRel) (k : RelRef) : Bool :=
  R.any (relMatch k)

/-- Modelled from the spec: `MERGE (a)-[r:TYPE]->(b) SET r += $props` on
the stored edge list, for an already resolved edge identity. -/
def relUpsert (R : List StoreRel) (k : RelRef) (props : Props) : List StoreRel :=
  if hasRelKey R k then
    R.map (fun r =>
      if r.type = k.1 ∧ r.startRef = k.2.1 ∧ r.endRef = k.2.2 then
        { r with props := updateProps r.props props }
      else r)
  else R ++ [⟨k.1, k.2.1, k.2.2, updateProps [] props⟩]

/-- Modelled from the spec: one relationship write; when either endpoint
is absent the match is empty and the edge write is silently skipped
(per-edge failure, the load continues). -/
def mergeRelOp (st : GraphStore) (type sid eid : String) (props : Props) : GraphStore :=
  match resolveKey st.nodes type sid eid with
  | some k => { st with rels := relUpsert st.rels k props }
  | none => st

/-- A node of the consolidated graph handed to the writer. -/
structure LoadNode where
  id : String
  label : String
  properties : Props
deriving DecidableEq

/-- A relationship of the consolidated graph handed to the writer. -/
structure LoadRel where
  type : String
  start_node_id : String
  end_node_id : String
  properties : Props
deriving DecidableEq

/-- The graph handed to `Neo4jCreateWriter.run`. -/
structure LoadGraph where
  nodes : List LoadNode
  relationships : List LoadRel
deriving DecidableEq

/-- One relationship write as it acts on the edge list, with the node
list held fixed. -/
def relStep (N : List StoreNode) (R : List StoreRel) (r : LoadRel) : List StoreRel :=
  match resolveKey N r.type r.start_node_id r.end_node_id with
  | some k => relUpsert R k r.properties
  | none => R

/-- The writer's first pass: all node MERGEs, in input order. -/
def nodesFold (ns : List StoreNode) (g : List LoadNode) : List StoreNode :=
  g.foldl (fun ns n => mergeNodeOp ns n.label n.id n.properties) ns

/-- The writer's second pass: all relationship MERGEs, in input order. -/
def relsFold (st : GraphStore) (g : List LoadRel) : GraphStore :=
  g.foldl (fun s r => mergeRelOp s r.type r.start_node_id r.end_node_id r.properties) st

/-- The loader `Neo4jCreateWriter.run`: all node MERGEs first, then all
relationship MERGEs, in input order. -/
def writerRun (st : GraphStore) (g : LoadGraph) : GraphStore :=
  relsFold { st with nodes := nodesFold st.nodes g.nodes } g.relationships

/-- Well-formedness of a consolidated graph as produced by
`merge_graphs`: node keys are pairwise distinct and relationship
triples are pairwise distinct. -/
def LoadGraph.wf (g : LoadGraph) : Prop :=
  (g.nodes.map (fun n => (n.label, n.id))).Nodup ∧
  (g.relationships.map (fun r => (r.type, r.start_node_id, r.end_node_id))).Nodup

instance (g : LoadGraph) : Decidable g.wf :=
  inferInstanceAs (Decidable (List.Nodup _ ∧ List.Nodup _))

/-! ## Association-list (Python dict) lemmas -/

theorem hasKey_iff_mem_keys {α : Type} (m : List (String × α)) (k : String) :
    hasKey m k = true ↔ k ∈ m.map Prod.fst := by
  induction m with
  | nil => simp [hasKey]
  | cons p m ih =>
    simp only [hasKey, Bool.or_eq_true, decide_eq_true_eq, List.map_cons, List.mem_cons, ih]
    constructor
    · rintro (h | h)
      · exact Or.inl h.symm
      · exact Or.inr h
    · rintro (h | h)
      · exact Or.inl h.symm
      · exact Or.inr h

theorem mem_dictInsert {α : Type} {m : List (String × α)} {k : String} {v : α}
    {p : String × α} (hp : p ∈ dictInsert m k v) : p ∈ m ∨ p = (k, v) := by
  unfold dictInsert at hp
  split at hp
  · rcases List.mem_map.mp hp with ⟨q, hq, hFq⟩
    by_cases h : q.1 = k
    · rw [if_pos h] at hFq
      exact Or.inr hFq.symm
    · rw [if_neg h] at hFq
      exact Or.inl (hFq ▸ hq)
  · rcases List.mem_append.mp hp with h | h
    · exact Or.inl h
    · right; simpa using h

theorem dictGet_eq_none_of_hasKey_false {α : Type} {m : List (String × α)} {k : String}
    (h : hasKey m k = false) : dictGet m k = none := by
  induction m with
  | nil => rfl
  | cons p m ih =>
    simp only [hasKey, Bool.or_eq_false_iff, decide_eq_false_iff_not] at h
    simp [dictGet, h.1, ih h.2]

theorem dictGet_append {α : Type} (a b : List (String × α)) (k : String) :
    dictGet (a ++ b) k = (dictGet a k).or (dictGet b k) := by
  induction a with
  | nil => simp [dictGet]
  | cons p a ih =>
    by_cases h : p.1 = k
    · simp [dictGet, h]
    · simp [dictGet, h, ih]

theorem dictGet_replace_eq {α : Type} {m : List (String × α)} {k : String} (v : α)
    (h : hasKey m k = true) :
    dictGet (m.map (fun p => if p.1 = k then (k, v) else p)) k = some v := by
  induction m with
  | nil => simp [hasKey] at h
  | cons p m ih =>
    by_cases hp : p.1 = k
    · simp [dictGet, hp]
    · have h' : hasKey m k = true := by simpa [hasKey, hp] using h
      simp only [List.map_cons, if_neg hp]
      simp [dictGet, hp, ih h']

theorem dictGet_replace_ne {α : Type} (m : List (String × α)) {k k' : String} (v : α)
    (h : k ≠ k') :
    dictGet (m.map (fun p => if p.1 = k then (k, v) else p)) k' = dictGet m k' := by
  induction m with
  | nil => rfl
  | cons p m ih =>
    by_cases hp : p.1 = k
    · simp [dictGet, hp, h, ih]
    · simp only [List.map_cons, if_neg hp]
      by_cases hp' : p.1 = k'
      · simp [dictGet, hp']
      · simp [dictGet, hp', ih]

theorem dictGet_dictInsert {α : Type} (m : List (String × α)) (k k' : String) (v : α) :
    dictGet (dictInsert m k v) k' = if k = k' then some v else dictGet m k' := by
  unfold dictInsert
  split
  · rename_i h
    by_cases hk : k = k'
    · subst hk; simp [dictGet_replace_eq v h]
    · simp [hk, dictGet_replace_ne m v hk]
  · rename_i h
    rw [dictGet_append]
    by_cases hk : k = k'
    · subst hk
      rw [dictGet_eq_none_of_hasKey_false (Bool.of_not_eq_true h)]
      simp [dictGet]
    · have h1 : dictGet [(k, v)] k' = (none : Option α) := by simp [dictGet, hk]
      rw [h1, if_neg hk]
      cases dictGet m k' <;> simp

theorem map_fst_dictInsert {α : Type} (m : List (String × α)) (k : String) (v : α) :
    (dictInsert m k v).map Prod.fst =
      if hasKey m k then m.map Prod.fst else m.map Prod.fst ++ [k] := by
  unfold dictInsert
  split
  · simp only [List.map_map]
    exact List.map_congr_left (fun p _ => by by_cases h : p.1 = k <;> simp [h])
  · simp

theorem nodup_keys_dictInsert {α : Type} {m : List (String × α)} (k : String) (v : α)
    (h : (m.map Prod.fst).Nodup) : ((dictInsert m k v).map Prod.fst).Nodup := by
  rw [map_fst_dictInsert]
  split
  · exact h
  · rename_i hk
    have : k ∉ m.map Prod.fst := fun hmem =>
      hk ((hasKey_iff_mem_keys m k).mpr hmem)
    simp [List.nodup_append, h, this]

theorem hasKey_append {α : Type} (a b : List (String × α)) (k : String) :
    hasKey (a ++ b) k = (hasKey a k || hasKey b k) := by
  induction a with
  | nil => simp [hasKey]
  | cons p a ih => simp [hasKey, ih, Bool.or_assoc]

theorem dictGet_mem {α : Type} {m : List (String × α)} {k : String} {v : α}
    (h : dictGet m k = some v) : (k, v) ∈ m := by
  induction m with
  | nil => simp [dictGet] at h
  | cons p m ih =>
    by_cases hp : p.1 = k
    · simp only [dictGet, if_pos hp] at h
      cases h
      subst hp
      exact List.mem_cons_self _ _
    · simp only [dictGet, if_neg hp] at h
      exact List.mem_cons_of_mem _ (ih h)

/-! ## The merge loop, unrolled -/

theorem insertNodes_cons (m : List (String × NodeObj)) (n : NodeObj) (ns : List NodeObj) :
    insertNodes m (n :: ns) =
      insertNodes
        (dictInsert m (normalize_id n.label n.name)
          ⟨normalize_id n.label n.name, n.label, n.name⟩) ns := rfl

theorem insertNodes_append (m : List (String × NodeObj)) (a b : List NodeObj) :
    insertNodes m (a ++ b) = insertNodes (insertNodes m a) b := by
  simp [insertNodes, List.foldl_append]

theorem allInputNodes_cons_none (gs : List (Option Chunk)) :
    allInputNodes (none :: gs) = allInputNodes gs := by
  simp [allInputNodes]

theorem allInputNodes_cons_some (ch : Chunk) (gs : List (Option Chunk)) :
    allInputNodes (some ch :: gs) = ch.nodes ++ allInputNodes gs := by
  simp [allInputNodes]

theorem allRewrittenRels_cons_none (gs : List (Option Chunk)) :
    allRewrittenRels (none :: gs) = allRewrittenRels gs := by
  simp [allRewrittenRels]

theorem allRewrittenRels_cons_some (ch : Chunk) (gs : List (Option Chunk)) :
    allRewrittenRels (some ch :: gs) =
      ch.relationships.map (rewriteRel (buildIdMap ch.nodes)) ++ allRewrittenRels gs := by
  simp [allRewrittenRels]

theorem foldl_processChunk_nodes (gs : List (Option Chunk)) (st : MergeState) :
    (gs.foldl processChunk st).combined_nodes =
      insertNodes st.combined_nodes (allInputNodes gs) := by
  induction gs generalizing st with
  | nil => simp [allInputNodes, insertNodes]
  | cons c gs ih =>
    cases c with
    | none =>
      rw [List.foldl_cons, allInputNodes_cons_none]
      exact ih st
    | some ch =>
      rw [List.foldl_cons, allInputNodes_cons_some, insertNodes_append]
      exact ih _

theorem foldl_processChunk_rels (gs : List (Option Chunk)) (st : MergeState) :
    (gs.foldl processChunk st).combined_relationships =
      st.combined_relationships ++ allRewrittenRels gs := by
  induction gs generalizing st with
  | nil => simp [allRewrittenRels]
  | cons c gs ih =>
    cases c with
    | none =>
      rw [List.foldl_cons, allRewrittenRels_cons_none]
      exact ih st
    | some ch =>
      rw [List.foldl_cons, allRewrittenRels_cons_some, ih]
      simp [processChunk, List.append_assoc]

theorem mergeFold_nodes (gs : List (Option Chunk)) :
    (mergeFold gs).combined_nodes = insertNodes [] (allInputNodes gs) :=
  foldl_processChunk_nodes gs ⟨[], []⟩

theorem mergeFold_rels (gs : List (Option Chunk)) :
    (mergeFold gs).combined_relationships = allRewrittenRels gs := by
  have h := foldl_processChunk_rels gs ⟨[], []⟩
  simpa using h

/-- The node mapping after inserting `ns` answers every key lookup with
the last input node normalizing to that key (or falls back to the prior
mapping). -/
theorem insertNodes_get (ns : List NodeObj) (m : List (String × NodeObj)) (k : String) :
    dictGet (insertNodes m ns) k =
      match (ns.filter (fun n => decide (normalize_id n.label n.name = k))).getLast? with
      | some n => some ⟨k, n.label, n.name⟩
      | none => dictGet m k := by
  induction ns generalizing m with
  | nil => simp [insertNodes]
  | cons n ns ih =>
    rw [insertNodes_cons, ih]
    by_cases hn : normalize_id n.label n.name = k
    · cases h : (ns.filter (fun n => decide (normalize_id n.label n.name = k))).getLast? with
      | some n' =>
        simp only [h, List.filter_cons, decide_eq_true_eq, if_pos hn, List.getLast?_cons, h,
          Option.getD_some]
      | none =>
        simp only [h, dictGet_dictInsert, if_pos hn, List.filter_cons, decide_eq_true_eq,
          if_pos hn, List.getLast?_cons, h, Option.getD_none]
        rw [← hn]
    · cases h : (ns.filter (fun n => decide (normalize_id n.label n.name = k))).getLast? with
      | some n' =>
        simp only [h, List.filter_cons, decide_eq_true_eq, if_neg hn, h]
      | none =>
        simp only [h, dictGet_dictInsert, if_neg hn, List.filter_cons, decide_eq_true_eq,
          if_neg hn, h]

/-- Well-formedness of the global node mapping: keys are distinct, each
value carries its key as `id`, and each key is the normalized id of its
value's label and name. -/
theorem insertNodes_wf (ns : List NodeObj) (m : List (String × NodeObj))
    (h1 : (m.map Prod.fst).Nodup)
    (h2 : ∀ p ∈ m, p.2.id = p.1 ∧ p.1 = normalize_id p.2.label p.2.name) :
    ((insertNodes m ns).map Prod.fst).Nodup ∧
      ∀ p ∈ insertNodes m ns, p.2.id = p.1 ∧ p.1 = normalize_id p.2.label p.2.name := by
  induction ns generalizing m with
  | nil => exact ⟨h1, h2⟩
  | cons n ns ih =>
    rw [insertNodes_cons]
    apply ih
    · exact nodup_keys_dictInsert _ _ h1
    · intro p hp
      rcases mem_dictInsert hp with h | h
      · exact h2 p h
      · subst h; exact ⟨rfl, rfl⟩

theorem mergeFold_wf (gs : List (Option Chunk)) :
    (((mergeFold gs).combined_nodes.map Prod.fst).Nodup) ∧
      ∀ p ∈ (mergeFold gs).combined_nodes,
        p.2.id = p.1 ∧ p.1 = normalize_id p.2.label p.2.name := by
  rw [mergeFold_nodes]
  exact insertNodes_wf _ [] (by simp) (by simp)

/-- On a well-formed node mapping, filtering the value list by id is the
same as a key lookup. -/
theorem filter_map_snd_eq_get (m : List (String × NodeObj)) (k : String)
    (h1 : (m.map Prod.fst).Nodup) (h2 : ∀ p ∈ m, p.2.id = p.1) :
    (m.map Prod.snd).filter (fun nd => decide (nd.id = k)) = (dictGet m k).toList := by
  induction m with
  | nil => rfl
  | cons p m ih =>
    have hk1 : p.1 ∉ m.map Prod.fst := (List.nodup_cons.mp h1).1
    have hid : p.2.id = p.1 := h2 p (List.mem_cons_self p m)
    by_cases hpk : p.1 = k
    · have hrest : (m.map Prod.snd).filter (fun nd => decide (nd.id = k)) = [] := by
        rw [List.filter_eq_nil_iff]
        rintro nd hnd
        rcases List.mem_map.mp hnd with ⟨q, hq, rfl⟩
        have hq1 : q.2.id = q.1 := h2 q (List.mem_cons_of_mem _ hq)
        simp only [decide_eq_true_eq, hq1]
        intro hqk
        apply hk1
        rw [hpk, ← hqk]
        exact List.mem_map_of_mem Prod.fst hq
      simp [dictGet, hpk, hid, hrest]
    · have : ¬(p.2.id = k) := by rw [hid]; exact hpk
      simp only [List.map_cons, List.filter_cons, decide_eq_true_eq, if_neg this,
        dictGet, if_neg hpk]
      exact ih (List.nodup_cons.mp h1).2 (fun q hq => h2 q (List.mem_cons_of_mem _ hq))

/-! ## The relationship dedup loop -/

theorem dedupRels_eq_firstOccs (rels : List RelObj) : dedupRels rels = firstOccs [] rels := by
  have h : ∀ (rels : List RelObj) (acc : List RelObj)
      (seen : List (String × String × String)),
      (rels.foldl
        (fun (acc : List RelObj × List (String × String × String)) r =>
          if relKey r ∈ acc.2 then acc else (acc.1 ++ [r], acc.2 ++ [relKey r]))
        (acc, seen)).1 = acc ++ firstOccs seen rels := by
    intro rels
    induction rels with
    | nil => intro acc seen; simp [firstOccs]
    | cons r rs ih =>
      intro acc seen
      by_cases h : relKey r ∈ seen
      · simp [firstOccs, h, ih]
      · simp [firstOccs, h, ih, List.append_assoc]
  simpa using h rels [] []

theorem firstOccs_sublist (seen : List (String × String × String)) (rels : List RelObj) :
    (firstOccs seen rels).Sublist rels := by
  induction rels generalizing seen with
  | nil => simp [firstOccs]
  | cons r rs ih =>
    by_cases h : relKey r ∈ seen
    · simp only [firstOccs, if_pos h]
      exact (ih seen).cons r
    · simp only [firstOccs, if_neg h]
      exact (ih _).cons₂ r

theorem firstOccs_filter (rels : List RelObj) (seen : List (String × String × String))
    (k : String × String × String) :
    (firstOccs seen rels).filter (fun r => decide (relKey r = k)) =
      if k ∈ seen then [] else (rels.find? (fun r => decide (relKey r = k))).toList := by
  induction rels generalizing seen with
  | nil => simp only [firstOccs, List.filter_nil, List.find?_nil]; split <;> rfl
  | cons r rs ih =>
    by_cases hr : relKey r ∈ seen
    · rw [show firstOccs seen (r :: rs) = firstOccs seen rs from by
        simp only [firstOccs, if_pos hr], ih]
      by_cases hk : k ∈ seen
      · simp [hk]
      · have hne : ¬(relKey r = k) := fun he => hk (he ▸ hr)
        simp [hk, List.find?_cons, hne]
    · rw [show firstOccs seen (r :: rs) = r :: firstOccs (seen ++ [relKey r]) rs from by
        simp only [firstOccs, if_neg hr]]
      by_cases hk : relKey r = k
      · subst hk
        have hmem : relKey r ∈ seen ++ [relKey r] := by simp
        simp [List.filter_cons, List.find?_cons, ih, hmem, hr]
      · have hmem : (k ∈ seen ++ [relKey r]) ↔ (k ∈ seen) := by
          simp only [List.mem_append, List.mem_singleton]
          constructor
          · rintro (h | h)
            · exact h
            · exact absurd h.symm hk
          · exact Or.inl
        simp only [List.filter_cons, decide_eq_true_eq, if_neg hk, ih, hmem,
          List.find?_cons]
        have : (decide (relKey r = k)) = false := by simp [hk]
        rw [this]

theorem firstOccs_keys (rels : List RelObj) (seen : List (String × String × String)) :
    (∀ r ∈ firstOccs seen rels, relKey r ∉ seen) ∧
      ((firstOccs seen rels).map relKey).Nodup := by
  induction rels generalizing seen with
  | nil => simp [firstOccs]
  | cons r rs ih =>
    by_cases h : relKey r ∈ seen
    · simpa only [firstOccs, if_pos h] using ih seen
    · simp only [firstOccs, if_neg h]
      have ih' := ih (seen ++ [relKey r])
      constructor
      · intro r' hr'
        rcases List.mem_cons.mp hr' with h' | h'
        · subst h'; exact h
        · intro hmem
          exact ih'.1 r' h' (List.mem_append_left _ hmem)
      · rw [List.map_cons, List.nodup_cons]
        refine ⟨?_, ih'.2⟩
        intro hmem
        rcases List.mem_map.mp hmem with ⟨r', hr', he⟩
        exact ih'.1 r' hr' (by rw [he]; simp)

theorem firstOccs_id (rels : List RelObj) (seen : List (String × String × String))
    (h1 : ∀ r ∈ rels, relKey r ∉ seen) (h2 : (rels.map relKey).Nodup) :
    firstOccs seen rels = rels := by
  induction rels generalizing seen with
  | nil => rfl
  | cons r rs ih =>
    rw [List.map_cons, List.nodup_cons] at h2
    have hr : relKey r ∉ seen := h1 r (List.mem_cons_self r rs)
    simp only [firstOccs, if_neg hr]
    congr 1
    apply ih
    · intro r' hr'
      simp only [List.mem_append, List.mem_singleton]
      rintro (h | h)
      · exact h1 r' (List.mem_cons_of_mem _ hr') h
      · exact h2.1 (h ▸ List.mem_map_of_mem relKey hr')
    · exact h2.2

/-- Filtering the merged relationship list by a dedup key yields exactly
the first rewritten occurrence with that key (empty when absent). -/
theorem merge_relationships_filter (gs : List (Option Chunk)) (k : String × String × String) :
    (merge_graphs gs).relationships.filter (fun r => decide (relKey r = k)) =
      ((allRewrittenRels gs).find? (fun r => decide (relKey r = k))).toList := by
  show (dedupRels (mergeFold gs).combined_relationships).filter _ = _
  rw [mergeFold_rels, dedupRels_eq_firstOccs, firstOccs_filter]
  simp

theorem merge_relationships_sublist (gs : List (Option Chunk)) :
    (merge_graphs gs).relationships.Sublist (allRewrittenRels gs) := by
  show (dedupRels (mergeFold gs).combined_relationships).Sublist _
  rw [mergeFold_rels, dedupRels_eq_firstOccs]
  exact firstOccs_sublist [] _

/-! ## Claim C4: missing vs. empty name in `normalize_id` -/

/-- C4, counterexample: the claim says a missing **or empty** name
yields `"{label}_unknown"`, but `pd.isna("") = False` in the code, so an
empty-string name falls through to the cleaning branch and yields
`"Company_"`, not `"Company_unknown"`. -/
theorem c4_counterexample :
    normalize_id "Company" (some "") = "Company_" ∧
    normalize_id "Company" (some "") ≠ "Company_unknown" := by decide

/-- C4, amended: only a *missing* (`pd.isna`) name yields
`"{label}_unknown"` — so all nameless entities of one label collapse to
that single id — while an *empty-string* name instead yields the
distinct id `"{label}_"`. -/
theorem c4_unknown_collapse (label : String) :
    normalize_id label none = label ++ "_unknown" ∧
    normalize_id label (some "") = label ++ "_" := by
  refine ⟨rfl, ?_⟩
  show label ++ "_" ++ cleanName "" = label ++ "_"
  have h : cleanName "" = "" := rfl
  rw [h]
  apply String.ext
  simp [String.data_append]

/-! ## Claim C5: the cleaning pipeline of `normalize_id` -/

/-- The fold `replaceSpaces` is the per-character space-to-underscore map. -/
theorem replaceSpaces_eq_map (cs : List Char) :
    replaceSpaces cs = cs.map (fun c => if c = ' ' then '_' else c) := by
  have h : ∀ (l : List Char) (acc : List Char),
      l.foldl (fun acc c => acc ++ [if c = ' ' then '_' else c]) acc =
        acc ++ l.map (fun c => if c = ' ' then '_' else c) := by
    intro l
    induction l with
    | nil => simp
    | cons c l ih => intro acc; simp [ih, List.append_assoc]
  simpa using h cs []

/-- C5, counterexample: the claim describes the last cleaning step as
"replace each internal whitespace run with a single underscore", but the
code's `.replace(' ', '_')` replaces every single space character, so a
run of two spaces becomes two underscores (`"Company_a__b"`), not one
(`"Company_a_b"`). -/
theorem c5_counterexample :
    normalize_id "Company" (some "a  b") = "Company_a__b" ∧
    normalize_id_spec "Company" (some "a  b") = "Company_a_b" ∧
    normalize_id "Company" (some "a  b") ≠ normalize_id_spec "Company" (some "a  b") := by
  decide

/-- C5, amended: for a non-missing name, `normalize_id` strips all
characters that are neither word characters nor whitespace, trims,
lowercases, replaces **each space character** with an underscore (a run
of k spaces becomes k underscores; internal non-space whitespace is kept
as is), and prepends `label ++ "_"`; in particular `"NetApp Inc."` and
`"netapp inc"` both normalize to `"Company_netapp_inc"`. -/
theorem c5_cleaning_pipeline (label s : String) :
    normalize_id label (some s) = normalize_id_amended label s ∧
    normalize_id "Company" (some "NetApp Inc.") = "Company_netapp_inc" ∧
    normalize_id "Company" (some "netapp inc") = "Company_netapp_inc" := by
  refine ⟨?_, by decide, by decide⟩
  show label ++ "_" ++ cleanName s = normalize_id_amended label s
  simp only [cleanName, normalize_id_amended, replaceSpaces_eq_map]

/-! ## Claim C1: nodes are keyed by normalized id, last seen wins -/

/-- C1: in the consolidated graph, the nodes whose id is `k` are exactly
one node per key that some input node normalizes to — and it carries the
label and name of the **last** input node (in merge traversal order)
normalizing to `k`; in particular two batches each mentioning Company
"Acme" collapse to the single node `Company_acme`. -/
theorem c1_merge_last_wins (gs : List (Option Chunk)) (k : String) :
    ((merge_graphs gs).nodes.filter (fun nd => decide (nd.id = k)) =
      ((((allInputNodes gs).filter
          (fun n => decide (normalize_id n.label n.name = k))).getLast?).map
        (fun n => (⟨k, n.label, n.name⟩ : NodeObj))).toList) ∧
    merge_graphs [some ⟨[⟨"n1", "Company", some "Acme"⟩], []⟩,
        some ⟨[⟨"n7", "Company", some "Acme"⟩], []⟩] =
      ⟨[⟨"Company_acme", "Company", some "Acme"⟩], []⟩ := by
  constructor
  · have hw := mergeFold_wf gs
    have h1 : (merge_graphs gs).nodes = ((mergeFold gs).combined_nodes).map Prod.snd := rfl
    rw [h1, filter_map_snd_eq_get _ k hw.1 (fun p hp => (hw.2 p hp).1), mergeFold_nodes,
      insertNodes_get]
    cases h : ((allInputNodes gs).filter
        (fun n => decide (normalize_id n.label n.name = k))).getLast? with
    | some n => simp [h]
    | none => simp [h, dictGet]
  · decide

/-! ## Claim C2: relationship dedup keeps the first occurrence, in order -/

/-- C2: for every dedup key, the consolidated relationship list contains
exactly the first rewritten occurrence with that key (so any two entries
with identical `(type, start, end)` collapse to one), and the output is
a sublist of the rewritten input, i.e. relationships appear in
first-occurrence order.  (In the code a relationship dict is exactly its
`(type, start, end)` triple, so "keeps the first occurrence's
properties" is subsumed by the element equality.) -/
theorem c2_relationship_dedup (gs : List (Option Chunk)) (k : String × String × String) :
    ((merge_graphs gs).relationships.filter (fun r => decide (relKey r = k)) =
      ((allRewrittenRels gs).find? (fun r => decide (relKey r = k))).toList) ∧
    (merge_graphs gs).relationships.Sublist (allRewrittenRels gs) :=
  ⟨merge_relationships_filter gs k, merge_relationships_sublist gs⟩

/-! ## Claim C6: endpoint rewriting and dangling references -/

/-- C6: the merge loop's collected relationships are exactly each
chunk's relationships rewritten through that chunk's own batch-local id
map; an endpoint id absent from the map is kept unchanged (and a present
one is replaced by its mapping); and every rewritten relationship is
retained in the consolidated output (one entry per key), with no
requirement that its endpoints name existing nodes — dangling references
are tolerated, not dropped. -/
theorem c6_endpoint_rewrite_dangling (gs : List (Option Chunk))
    (m : List (String × String)) (r : RelObj) :
    ((mergeFold gs).combined_relationships = allRewrittenRels gs) ∧
    (dictGet m r.start_node_id = none →
      (rewriteRel m r).start_node_id = r.start_node_id) ∧
    (dictGet m r.end_node_id = none →
      (rewriteRel m r).end_node_id = r.end_node_id) ∧
    (∀ s, dictGet m r.start_node_id = some s → (rewriteRel m r).start_node_id = s) ∧
    (∀ e, dictGet m r.end_node_id = some e → (rewriteRel m r).end_node_id = e) ∧
    (∀ r' ∈ allRewrittenRels gs,
      ∃ r'' ∈ (merge_graphs gs).relationships, relKey r'' = relKey r') := by
  refine ⟨mergeFold_rels gs, ?_, ?_, ?_, ?_, ?_⟩
  · intro h; simp [rewriteRel, h]
  · intro h; simp [rewriteRel, h]
  · intro s h; simp [rewriteRel, h]
  · intro e h; simp [rewriteRel, h]
  · intro r' hr'
    have hsome : ((allRewrittenRels gs).find?
        (fun r => decide (relKey r = relKey r'))).isSome := by
      rw [List.find?_isSome]
      exact ⟨r', hr', by simp⟩
    rcases Option.isSome_iff_exists.mp hsome with ⟨r'', hr''⟩
    have hfilter := merge_relationships_filter gs (relKey r')
    rw [hr''] at hfilter
    have hmem : r'' ∈ (merge_graphs gs).relationships.filter
        (fun r => decide (relKey r = relKey r')) := by
      rw [hfilter]; simp
    have h := List.mem_filter.mp hmem
    exact ⟨r'', h.1, by simpa using h.2⟩

/-- C6 witness: concrete instance — with an empty batch-local map both
endpoints stay unchanged, and a relationship whose endpoints name no
node at all is still present in the consolidated output. -/
theorem c6_witness :
    (rewriteRel [] ⟨"HAS_REPORT", "a", "b"⟩).start_node_id = "a" ∧
    ∃ r'' ∈ (merge_graphs [some ⟨[], [⟨"HAS_REPORT", "a", "b"⟩]⟩]).relationships,
      relKey r'' = relKey (rewriteRel (buildIdMap []) ⟨"HAS_REPORT", "a", "b"⟩) :=
  ⟨(c6_endpoint_rewrite_dangling [] [] ⟨"HAS_REPORT", "a", "b"⟩).2.1 rfl,
   (c6_endpoint_rewrite_dangling [some ⟨[], [⟨"HAS_REPORT", "a", "b"⟩]⟩]
      [] ⟨"HAS_REPORT", "a", "b"⟩).2.2.2.2.2
     (rewriteRel (buildIdMap []) ⟨"HAS_REPORT", "a", "b"⟩) (by decide)⟩

/-! ## Claim C10: merging is idempotent as a consolidation step -/

theorem insertNodes_of_assoc (m : List (String × NodeObj)) (acc : List (String × NodeObj))
    (hd : ∀ p ∈ m, hasKey acc p.1 = false)
    (h1 : (m.map Prod.fst).Nodup)
    (h2 : ∀ p ∈ m, p.2.id = p.1 ∧ p.1 = normalize_id p.2.label p.2.name) :
    insertNodes acc (m.map Prod.snd) = acc ++ m := by
  induction m generalizing acc with
  | nil => simp [insertNodes]
  | cons p m ih =>
    rw [List.map_cons, insertNodes_cons]
    have hp := h2 p (List.mem_cons_self p m)
    have hnid : normalize_id p.2.label p.2.name = p.1 := hp.2.symm
    have hval : (⟨normalize_id p.2.label p.2.name, p.2.label, p.2.name⟩ : NodeObj) = p.2 := by
      rw [hnid, ← hp.1]
    have hnotk : ¬(hasKey acc p.1 = true) := by
      rw [hd p (List.mem_cons_self p m)]; simp
    have hins : dictInsert acc (normalize_id p.2.label p.2.name)
        ⟨normalize_id p.2.label p.2.name, p.2.label, p.2.name⟩ = acc ++ [p] := by
      rw [hval, hnid]
      unfold dictInsert
      rw [if_neg hnotk]
    rw [hins]
    rw [List.map_cons, List.nodup_cons] at h1
    have ih' := ih (acc ++ [p])
      (by
        intro q hq
        rw [hasKey_append]
        have hq1 : hasKey acc q.1 = false := hd q (List.mem_cons_of_mem _ hq)
        have hq2 : hasKey [p] q.1 = false := by
          have : ¬(p.1 = q.1) := fun he => h1.1 (he ▸ List.mem_map_of_mem Prod.fst hq)
          simp [hasKey, this]
        rw [hq1, hq2]
        rfl)
      h1.2
      (fun q hq => h2 q (List.mem_cons_of_mem _ hq))
    rw [ih']
    simp

theorem buildIdMap_entries (ns : List NodeObj)
    (h : ∀ n ∈ ns, normalize_id n.label n.name = n.id) :
    ∀ e ∈ buildIdMap ns, e.2 = e.1 := by
  have hgen : ∀ (ns : List NodeObj) (acc : List (String × String)),
      (∀ e ∈ acc, e.2 = e.1) → (∀ n ∈ ns, normalize_id n.label n.name = n.id) →
      ∀ e ∈ ns.foldl
        (fun m node => dictInsert m node.id (normalize_id node.label node.name)) acc,
        e.2 = e.1 := by
    intro ns
    induction ns with
    | nil => intro acc ha _ e he; exact ha e he
    | cons n ns ih =>
      intro acc ha hn e he
      refine ih _ ?_ (fun n' hn' => hn n' (List.mem_cons_of_mem _ hn')) e he
      intro e' he'
      rcases mem_dictInsert he' with h' | h'
      · exact ha e' h'
      · subst h'; exact hn n (List.mem_cons_self n ns)
  intro e he
  exact hgen ns [] (by simp) h e he

theorem rewriteRel_of_identity (m : List (String × String)) (r : RelObj)
    (h : ∀ e ∈ m, e.2 = e.1) : rewriteRel m r = r := by
  have hs : ∀ x : String, (dictGet m x).getD x = x := by
    intro x
    cases hx : dictGet m x with
    | none => rfl
    | some y =>
      have := h (x, y) (dictGet_mem hx)
      simpa using this
  unfold rewriteRel
  rw [hs r.start_node_id, hs r.end_node_id]

/-- C10: re-merging the consolidated graph as a single chunk returns
the same consolidated graph — every output node id already equals the
normalized id of its label and name, so the re-insertion is the
identity, the batch-local map is the identity on ids, and the already
deduplicated relationship sequence survives dedup unchanged. -/
theorem c10_merge_idempotent (gs : List (Option Chunk)) :
    merge_graphs [some (merge_graphs gs).toChunk] = merge_graphs gs := by
  have hw := mergeFold_wf gs
  have hins : insertNodes [] ((mergeFold gs).combined_nodes.map Prod.snd) =
      (mergeFold gs).combined_nodes := by
    have h := insertNodes_of_assoc (mergeFold gs).combined_nodes []
      (fun p _ => rfl) hw.1 hw.2
    simpa using h
  have hLnodes : (merge_graphs [some (merge_graphs gs).toChunk]).nodes =
      (merge_graphs gs).nodes := by
    show (insertNodes [] ((mergeFold gs).combined_nodes.map Prod.snd)).map Prod.snd =
      (mergeFold gs).combined_nodes.map Prod.snd
    rw [hins]
  have hmapid : ∀ n ∈ (mergeFold gs).combined_nodes.map Prod.snd,
      normalize_id n.label n.name = n.id := by
    intro n hn
    rcases List.mem_map.mp hn with ⟨p, hp, rfl⟩
    have h := hw.2 p hp
    rw [← h.2]
    exact h.1.symm
  have hkeysnodup : ((merge_graphs gs).relationships.map relKey).Nodup := by
    show ((dedupRels (mergeFold gs).combined_relationships).map relKey).Nodup
    rw [dedupRels_eq_firstOccs]
    exact (firstOccs_keys _ []).2
  have hrw : ∀ r ∈ (merge_graphs gs).relationships,
      rewriteRel (buildIdMap ((mergeFold gs).combined_nodes.map Prod.snd)) r = r := by
    intro r _
    exact rewriteRel_of_identity _ r (buildIdMap_entries _ hmapid)
  have hLrels : (merge_graphs [some (merge_graphs gs).toChunk]).relationships =
      (merge_graphs gs).relationships := by
    show dedupRels ([] ++ ((merge_graphs gs).relationships.map
        (rewriteRel (buildIdMap ((mergeFold gs).combined_nodes.map Prod.snd))))) =
      (merge_graphs gs).relationships
    rw [List.nil_append]
    have h1 : (merge_graphs gs).relationships.map
        (rewriteRel (buildIdMap ((mergeFold gs).combined_nodes.map Prod.snd))) =
        (merge_graphs gs).relationships.map (fun r => r) :=
      List.map_congr_left hrw
    rw [h1, List.map_id']
    rw [dedupRels_eq_firstOccs]
    exact firstOccs_id _ [] (by simp) hkeysnodup
  calc merge_graphs [some (merge_graphs gs).toChunk]
      = ⟨(merge_graphs [some (merge_graphs gs).toChunk]).nodes,
         (merge_graphs [some (merge_graphs gs).toChunk]).relationships⟩ := rfl
    _ = ⟨(merge_graphs gs).nodes, (merge_graphs gs).relationships⟩ := by
        rw [hLnodes, hLrels]
    _ = merge_graphs gs := rfl

/-! ## Claim C3: checkpoint resume and per-batch persistence -/

/-- The batch loop, run over any index list from any starting state:
the recorded list grows by exactly the successful batches' chunks (a
failed batch appends nothing and the loop continues), and the
checkpoint file is written once per successful batch, each time holding
the entire list up to and including that batch's chunk. -/
theorem foldl_processBatch (outcome : Nat → BatchOutcome) (idxs : List Nat)
    (gs0 : List (Option Chunk)) (ps0 : List (List (Option Chunk))) :
    idxs.foldl (processBatch outcome) ⟨gs0, ps0⟩ =
      ⟨gs0 ++ successGraphs outcome idxs,
       ps0 ++ (List.range (successGraphs outcome idxs).length).map
         (fun j => gs0 ++ (successGraphs outcome idxs).take (j + 1))⟩ := by
  induction idxs generalizing gs0 ps0 with
  | nil => simp [successGraphs]
  | cons i rest ih =>
    rw [List.foldl_cons]
    cases ho : outcome i with
    | failure =>
      have hstep : processBatch outcome ⟨gs0, ps0⟩ i = ⟨gs0, ps0⟩ := by
        simp [processBatch, ho]
      have hsg : successGraphs outcome (i :: rest) = successGraphs outcome rest := by
        simp [successGraphs, ho, outcomeGraph]
      rw [hstep, ih, hsg]
    | success g =>
      have hstep : processBatch outcome ⟨gs0, ps0⟩ i =
          ⟨gs0 ++ [g], ps0 ++ [gs0 ++ [g]]⟩ := by
        simp [processBatch, ho]
      have hsg : successGraphs outcome (i :: rest) = g :: successGraphs outcome rest := by
        simp [successGraphs, ho, outcomeGraph]
      rw [hstep, ih, hsg]
      refine congrArg₂ LoopState.mk ?_ ?_
      · simp
      · rw [List.length_cons, List.range_succ_eq_map, List.map_cons, List.map_map,
          List.append_assoc, List.singleton_append]
        congr 1
        congr 1
        apply List.map_congr_left
        intro j _
        simp [Function.comp, List.take_succ_cons, List.append_assoc]

theorem pyRange_head (start stop step : Nat) (hstep : 0 < step) :
    (pyRange start stop step).head? = if start < stop then some start else none := by
  unfold pyRange pyRangeLen
  rcases Nat.eq_zero_or_pos ((stop - start + step - 1) / step) with h | h
  · have hns : ¬(start < stop) := by
      rw [Nat.div_eq_zero_iff hstep] at h
      omega
    rw [h]
    simp [hns]
  · obtain ⟨n, hn⟩ : ∃ n, (stop - start + step - 1) / step = n + 1 :=
      ⟨_, (Nat.succ_pred_eq_of_pos h).symm⟩
    have hlt : start < stop := by
      by_contra hc
      have hz : stop - start = 0 := by omega
      rw [hz] at hn
      have : (0 + step - 1) / step = 0 := by
        rw [Nat.div_eq_zero_iff hstep]
        omega
      omega
    rw [hn, List.range_succ_eq_map, List.map_cons]
    simp [hlt]

/-- C3: with a checkpoint of length k and batch size b (positive), the
first batch index the loop processes is exactly k*b (none when k*b is
already past the end); the final recorded list is the checkpoint plus
exactly the successful batches' chunks in order (failed batches record
nothing, the loop continues); and the checkpoint file is persisted once
after each successful batch, each write containing the whole list with
that batch's chunk appended — i.e. before the next batch runs. -/
theorem c3_resume_checkpoint (checkpoint : List (Option Chunk))
    (total_rows batch_size : Nat) (outcome : Nat → BatchOutcome)
    (hb : 0 < batch_size) :
    ((pyRange (checkpoint.length * batch_size) total_rows batch_size).head? =
      if checkpoint.length * batch_size < total_rows
      then some (checkpoint.length * batch_size) else none) ∧
    ((extractionLoop checkpoint total_rows batch_size outcome).all_raw_graphs =
      checkpoint ++ successGraphs outcome
        (pyRange (checkpoint.length * batch_size) total_rows batch_size)) ∧
    ((extractionLoop checkpoint total_rows batch_size outcome).persisted =
      (List.range (successGraphs outcome
          (pyRange (checkpoint.length * batch_size) total_rows batch_size)).length).map
        (fun j => checkpoint ++ (successGraphs outcome
          (pyRange (checkpoint.length * batch_size) total_rows batch_size)).take (j + 1))) := by
  refine ⟨pyRange_head _ _ _ hb, ?_, ?_⟩
  · unfold extractionLoop
    rw [foldl_processBatch]
  · unfold extractionLoop
    rw [foldl_processBatch]
    simp

/-- C3 witness: checkpoint of length 1, batch size 5, 12 rows; the
batch at index 5 fails, the one at index 10 succeeds. -/
theorem c3_witness :
    0 < 5 ∧
    (((pyRange (List.length [(none : Option Chunk)] * 5) 12 5).head? =
      if List.length [(none : Option Chunk)] * 5 < 12
      then some (List.length [(none : Option Chunk)] * 5) else none) ∧
    ((extractionLoop [(none : Option Chunk)] 12 5
        (fun i => if i = 5 then BatchOutcome.failure
          else BatchOutcome.success (some ⟨[], []⟩))).all_raw_graphs =
      [(none : Option Chunk)] ++ successGraphs
        (fun i => if i = 5 then BatchOutcome.failure
          else BatchOutcome.success (some ⟨[], []⟩))
        (pyRange (List.length [(none : Option Chunk)] * 5) 12 5)) ∧
    ((extractionLoop [(none : Option Chunk)] 12 5
        (fun i => if i = 5 then BatchOutcome.failure
          else BatchOutcome.success (some ⟨[], []⟩))).persisted =
      (List.range (successGraphs
          (fun i => if i = 5 then BatchOutcome.failure
            else BatchOutcome.success (some ⟨[], []⟩))
          (pyRange (List.length [(none : Option Chunk)] * 5) 12 5)).length).map
        (fun j => [(none : Option Chunk)] ++ (successGraphs
          (fun i => if i = 5 then BatchOutcome.failure
            else BatchOutcome.success (some ⟨[], []⟩))
          (pyRange (List.length [(none : Option Chunk)] * 5) 12 5)).take (j + 1)))) :=
  ⟨by decide,
   c3_resume_checkpoint [(none : Option Chunk)] 12 5
     (fun i => if i = 5 then BatchOutcome.failure
       else BatchOutcome.success (some ⟨[], []⟩)) (by decide)⟩

/-! ## Claim C8: the query gateway's error contract -/

/-- C8: `generate_answer` is a total function into answer/query pairs
(the embedding is a Lean function, so it never raises by construction):
a search that succeeds with zero records yields `(none, generated
query)`; an exception raised by the retriever search yields the
error-tagged answer with the query sentinel `"Error"`; and an exception
raised by the answer-synthesis call (only reachable when records exist)
yields the same error shape. -/
theorem c8_gateway_contract (search : ExtCall SearchResult)
    (synthesize : List String → ExtCall String) :
    (∀ r, search = ExtCall.ok r → r.items = [] →
      generate_answer search synthesize = (none, r.cypher.getD "")) ∧
    (∀ e, search = ExtCall.exn e →
      generate_answer search synthesize = (some (errorAnswer e), "Error")) ∧
    (∀ r e, search = ExtCall.ok r → r.items ≠ [] →
      synthesize r.items = ExtCall.exn e →
      generate_answer search synthesize = (some (errorAnswer e), "Error")) ∧
    (∀ r a, search = ExtCall.ok r → r.items ≠ [] →
      synthesize r.items = ExtCall.ok a →
      generate_answer search synthesize = (some a, r.cypher.getD "")) := by
  refine ⟨?_, ?_, ?_, ?_⟩
  · rintro r rfl hr
    simp [generate_answer, hr]
  · rintro e rfl
    rfl
  · rintro r e rfl hr hsyn
    have : ¬(r.items.isEmpty = true) := by
      simpa [List.isEmpty_iff] using hr
    simp [generate_answer, this, hsyn]
  · rintro r a rfl hr hsyn
    have : ¬(r.items.isEmpty = true) := by
      simpa [List.isEmpty_iff] using hr
    simp [generate_answer, this, hsyn]

/-- C8 witness: concrete instances of the three outcome shapes. -/
theorem c8_witness :
    (generate_answer (ExtCall.ok ⟨some "MATCH (n) RETURN n", []⟩)
        (fun _ => ExtCall.ok "ans") = (none, "MATCH (n) RETURN n")) ∧
    (generate_answer (ExtCall.exn "boom") (fun _ => ExtCall.ok "ans") =
      (some (errorAnswer "boom"), "Error")) ∧
    (generate_answer (ExtCall.ok ⟨some "q", ["row"]⟩)
        (fun _ => ExtCall.exn "llm down") = (some (errorAnswer "llm down"), "Error")) ∧
    (generate_answer (ExtCall.ok ⟨some "q", ["row"]⟩)
        (fun _ => ExtCall.ok "the answer") = (some "the answer", "q")) :=
  ⟨(c8_gateway_contract (ExtCall.ok ⟨some "MATCH (n) RETURN n", []⟩)
      (fun _ => ExtCall.ok "ans")).1 _ rfl rfl,
   (c8_gateway_contract (ExtCall.exn "boom") (fun _ => ExtCall.ok "ans")).2.1 _ rfl,
   (c8_gateway_contract (ExtCall.ok ⟨some "q", ["row"]⟩)
      (fun _ => ExtCall.exn "llm down")).2.2.1 _ _ rfl (by decide) rfl,
   (c8_gateway_contract (ExtCall.ok ⟨some "q", ["row"]⟩)
      (fun _ => ExtCall.ok "the answer")).2.2.2 _ _ rfl (by decide) rfl⟩

/-! ## Claim C9: batch serialization -/

theorem splitNl_cons_newline (cs : List Char) :
    splitNl ('\n' :: cs) = [] :: splitNl cs := by
  simp [splitNl]

theorem splitNl_append (a b : List Char) (hd : List Char) (tl : List (List Char))
    (hb : splitNl b = hd :: tl) (ha : ∀ c ∈ a, c ≠ '\n') :
    splitNl (a ++ b) = (a ++ hd) :: tl := by
  induction a with
  | nil => simpa using hb
  | cons c a ih =>
    have hc : c ≠ '\n' := ha c (List.mem_cons_self c a)
    have ih' : splitNl (a ++ b) = (a ++ hd) :: tl :=
      ih (fun c' h => ha c' (List.mem_cons_of_mem _ h))
    show splitNl (c :: (a ++ b)) = (c :: (a ++ hd)) :: tl
    rw [splitNl, if_neg hc, ih']

/-- Splitting one serialized row block followed by anything: a
newline-free header line, a newline-free cell line, and a blank
separator line, then the rest. -/
theorem splitNl_block (H T R : List Char) (hH : ∀ c ∈ H, c ≠ '\n')
    (hT : ∀ c ∈ T, c ≠ '\n') :
    splitNl (H ++ '\n' :: (T ++ '\n' :: '\n' :: R)) = H :: T :: [] :: splitNl R := by
  have h1 : splitNl ('\n' :: '\n' :: R) = [] :: [] :: splitNl R := by
    rw [splitNl_cons_newline, splitNl_cons_newline]
  have h2 : splitNl (T ++ '\n' :: '\n' :: R) = T :: [] :: splitNl R := by
    have h := splitNl_append T ('\n' :: '\n' :: R) [] ([] :: splitNl R) h1 hT
    simpa using h
  have h3 : splitNl ('\n' :: (T ++ '\n' :: '\n' :: R)) = [] :: T :: [] :: splitNl R := by
    rw [splitNl_cons_newline, h2]
  have h := splitNl_append H _ _ _ h3 hH
  simpa using h

theorem nlFree_append (s t : String) (hs : nlFree s) (ht : nlFree t) :
    nlFree (s ++ t) := by
  intro c hc
  rw [String.data_append] at hc
  rcases List.mem_append.mp hc with h | h
  · exact hs c h
  · exact ht c h

theorem digitChar_ne_newline : ∀ (n : Nat), Nat.digitChar n ≠ '\n'
  | 0 => by decide
  | 1 => by decide
  | 2 => by decide
  | 3 => by decide
  | 4 => by decide
  | 5 => by decide
  | 6 => by decide
  | 7 => by decide
  | 8 => by decide
  | 9 => by decide
  | 10 => by decide
  | 11 => by decide
  | 12 => by decide
  | 13 => by decide
  | 14 => by decide
  | 15 => by decide
  | (m + 16) => by
    have h : Nat.digitChar (m + 16) = '*' := by
      unfold Nat.digitChar
      repeat rw [if_neg (by omega)]
    rw [h]
    decide

theorem toDigitsCore_mem (b : Nat) :
    ∀ (fuel n : Nat) (ds : List Char), ∀ c ∈ Nat.toDigitsCore b fuel n ds,
      c ∈ ds ∨ ∃ m, c = Nat.digitChar m := by
  intro fuel
  induction fuel with
  | zero =>
    intro n ds c hc
    simp only [Nat.toDigitsCore] at hc
    exact Or.inl hc
  | succ fuel ih =>
    intro n ds c hc
    simp only [Nat.toDigitsCore] at hc
    split at hc
    · rcases List.mem_cons.mp hc with h | h
      · exact Or.inr ⟨_, h⟩
      · exact Or.inl h
    · rcases ih _ _ c hc with h | h
      · rcases List.mem_cons.mp h with h' | h'
        · exact Or.inr ⟨_, h'⟩
        · exact Or.inl h'
      · exact Or.inr h

theorem repr_nlFree (n : Nat) : nlFree (Nat.repr n) := by
  intro c hc
  have hc' : c ∈ Nat.toDigitsCore 10 (n + 1) n [] := hc
  rcases toDigitsCore_mem 10 (n + 1) n [] c hc' with h | ⟨m, rfl⟩
  · simp at h
  · exact digitChar_ne_newline m

theorem rowHeader_nlFree (i : Nat) : nlFree ("[Row " ++ Nat.repr (i + 1) ++ "]") :=
  nlFree_append _ _ (nlFree_append _ _ (by decide) (repr_nlFree _)) (by decide)

theorem joinSep_nlFree (sep : String) (l : List String) (hsep : nlFree sep)
    (hl : ∀ s ∈ l, nlFree s) : nlFree (joinSep sep l) := by
  induction l with
  | nil => intro c hc; simp [joinSep] at hc
  | cons x xs ih =>
    cases xs with
    | nil => simpa [joinSep] using hl x (List.mem_cons_self x [])
    | cons y ys =>
      show nlFree (x ++ sep ++ joinSep sep (y :: ys))
      exact nlFree_append _ _
        (nlFree_append _ _ (hl x (List.mem_cons_self _ _)) hsep)
        (ih (fun s hs => hl s (List.mem_cons_of_mem _ hs)))

theorem rowText_nlFree (row : List (String × Option String))
    (h : ∀ cv ∈ row, nlFree cv.1 ∧ ∀ v, cv.2 = some v → nlFree v) :
    nlFree (rowText row) := by
  apply joinSep_nlFree _ _ (by decide)
  intro s hs
  rcases List.mem_filterMap.mp hs with ⟨cv, hcv, hmap⟩
  cases h2 : cv.2 with
  | none => rw [h2] at hmap; simp at hmap
  | some v =>
    rw [h2] at hmap
    simp only [Option.map_some', Option.some.injEq] at hmap
    subst hmap
    exact nlFree_append _ _
      (nlFree_append _ _ (h cv hcv).1 (by decide)) ((h cv hcv).2 v h2)

theorem string_append_empty (s : String) : s ++ "" = s := by
  apply String.ext
  simp [String.data_append]

theorem batchText_foldl (batch : List (Nat × List (String × Option String)))
    (acc : String) :
    batch.foldl (fun a rc => a ++ rowBlock rc) acc = acc ++ batchText batch := by
  induction batch generalizing acc with
  | nil =>
    show acc = acc ++ ""
    rw [string_append_empty]
  | cons rc rest ih =>
    show rest.foldl _ (acc ++ rowBlock rc) = acc ++ batchText (rc :: rest)
    rw [ih]
    have h2 : batchText (rc :: rest) = rowBlock rc ++ batchText rest := by
      show rest.foldl _ ("" ++ rowBlock rc) = _
      rw [ih]
      apply congrArg₂ (· ++ ·) _ rfl
      apply String.ext
      simp [String.data_append]
    rw [h2, String.append_assoc]

theorem batchText_cons (rc : Nat × List (String × Option String))
    (rest : List (Nat × List (String × Option String))) :
    batchText (rc :: rest) = rowBlock rc ++ batchText rest := by
  show rest.foldl _ ("" ++ rowBlock rc) = _
  rw [batchText_foldl]
  apply congrArg₂ (· ++ ·) _ rfl
  apply String.ext
  simp [String.data_append]

theorem rowBlock_data (rc : Nat × List (String × Option String)) :
    (rowBlock rc).data =
      ("[Row " ++ Nat.repr (rc.1 + 1) ++ "]").data ++
        '\n' :: ((rowText rc.2).data ++ '\n' :: '\n' :: []) := by
  show ("[Row " ++ Nat.repr (rc.1 + 1) ++ "]\n" ++ rowText rc.2 ++ "\n\n").data = _
  have e1 : "]\n".data = [']', '\n'] := rfl
  have e2 : "\n\n".data = ['\n', '\n'] := rfl
  have e3 : "]".data = [']'] := rfl
  simp [String.data_append, e1, e2, e3, List.append_assoc]

/-- The serialized batch splits into exactly three lines per row — the
`[Row i]` header, one line holding all of that row's surviving cells,
and a blank separator — plus the final empty tail segment. -/
theorem splitLines_batchText (batch : List (Nat × List (String × Option String)))
    (h : ∀ rc ∈ batch, nlFree (rowText rc.2)) :
    splitLines (batchText batch) =
      batch.flatMap
        (fun rc => ["[Row " ++ Nat.repr (rc.1 + 1) ++ "]", rowText rc.2, ""]) ++ [""] := by
  induction batch with
  | nil => rfl
  | cons rc rest ih =>
    have hblock : (batchText (rc :: rest)).data =
        ("[Row " ++ Nat.repr (rc.1 + 1) ++ "]").data ++
          '\n' :: ((rowText rc.2).data ++ '\n' :: '\n' :: (batchText rest).data) := by
      rw [batchText_cons, String.data_append, rowBlock_data]
      simp [List.append_assoc]
    unfold splitLines
    rw [hblock, splitNl_block _ _ _
      (rowHeader_nlFree rc.1) (h rc (List.mem_cons_self _ _))]
    have ih' := ih (fun rc' h' => h rc' (List.mem_cons_of_mem _ h'))
    unfold splitLines at ih'
    simp only [List.map_cons, List.flatMap_cons, List.cons_append, ih']
    rfl

theorem rowText_drop_missing (row : List (String × Option String)) :
    rowText row = rowText (row.filter (fun cv => cv.2.isSome)) := by
  unfold rowText
  congr 1
  induction row with
  | nil => rfl
  | cons cv rest ih =>
    cases h2 : cv.2 with
    | none => simp [List.filterMap_cons, List.filter_cons, h2, ih]
    | some v => simp [List.filterMap_cons, List.filter_cons, h2, ih]

/-- C9, counterexample: the claim promises "one line per non-missing
cell", but for a row with the two non-missing cells `a: 1` and `b: 2`
the code joins them with `" / "` onto one shared line — there is a line
`"a: 1 / b: 2"` and no line `"a: 1"`. -/
theorem c9_counterexample :
    batchText [(0, [("a", some "1"), ("b", some "2")])] =
      "[Row 1]\na: 1 / b: 2\n\n" ∧
    "a: 1 / b: 2" ∈ splitLines (batchText [(0, [("a", some "1"), ("b", some "2")])]) ∧
    "a: 1" ∉ splitLines (batchText [(0, [("a", some "1"), ("b", some "2")])]) := by
  decide

/-- C9, amended: the batch is serialized as one line **per row** (not
per cell): for each row, a `[Row i]` header line, then a single line
with all that row's non-missing cells joined by `" / "`, then a blank
separator line; missing cells contribute nothing to the row's line. -/
theorem c9_row_serialization (batch : List (Nat × List (String × Option String)))
    (h : ∀ rc ∈ batch, ∀ cv ∈ rc.2, nlFree cv.1 ∧ ∀ v, cv.2 = some v → nlFree v) :
    (splitLines (batchText batch) =
      batch.flatMap
        (fun rc => ["[Row " ++ Nat.repr (rc.1 + 1) ++ "]", rowText rc.2, ""]) ++ [""]) ∧
    ∀ row : List (String × Option String),
      rowText row = rowText (row.filter (fun cv => cv.2.isSome)) :=
  ⟨splitLines_batchText batch
    (fun rc hrc => rowText_nlFree rc.2 (fun cv hcv => h rc hrc cv hcv)),
   rowText_drop_missing⟩

/-- C9 witness: a concrete batch with a missing cell in the middle. -/
theorem c9_witness :
    (∀ rc ∈ [((0 : Nat), [("a", some "1"), ("b", (none : Option String)), ("c", some "2")])],
      ∀ cv ∈ rc.2, nlFree cv.1 ∧ ∀ v, cv.2 = some v → nlFree v) ∧
    (splitLines (batchText [((0 : Nat), [("a", some "1"), ("b", (none : Option String)), ("c", some "2")])]) =
      [((0 : Nat), [("a", some "1"), ("b", (none : Option String)), ("c", some "2")])].flatMap
        (fun rc => ["[Row " ++ Nat.repr (rc.1 + 1) ++ "]", rowText rc.2, ""]) ++ [""]) ∧
    ∀ row : List (String × Option String),
      rowText row = rowText (row.filter (fun cv => cv.2.isSome)) :=
  ⟨by decide,
   (c9_row_serialization
     [((0 : Nat), [("a", some "1"), ("b", (none : Option String)), ("c", some "2")])]
     (by decide)).1,
   (c9_row_serialization
     [((0 : Nat), [("a", some "1"), ("b", (none : Option String)), ("c", some "2")])]
     (by decide)).2⟩

/-! ## Claim C7: property-map update (`SET += `) lemmas -/

theorem hasKey_of_mem {α : Type} {m : List (String × α)} {e : String × α} (h : e ∈ m) :
    hasKey m e.1 = true := by
  rw [hasKey_iff_mem_keys]
  exact List.mem_map_of_mem Prod.fst h

theorem hasKey_dictInsert_iff {α : Type} (m : List (String × α)) (k k' : String) (v : α) :
    hasKey (dictInsert m k v) k' = true ↔ (hasKey m k' = true ∨ k = k') := by
  rw [hasKey_iff_mem_keys, map_fst_dictInsert]
  split
  · rename_i h
    rw [hasKey_iff_mem_keys]
    constructor
    · exact Or.inl
    · rintro (h' | rfl)
      · exact h'
      · exact (hasKey_iff_mem_keys m k).mp h
  · rw [hasKey_iff_mem_keys]
    constructor
    · intro hm
      rcases List.mem_append.mp hm with h' | h'
      · exact Or.inl h'
      · exact Or.inr (List.mem_singleton.mp h').symm
    · rintro (h' | rfl)
      · exact List.mem_append_left _ h'
      · exact List.mem_append_right _ (List.mem_singleton.mpr rfl)

theorem updateProps_nil (q : Props) : updateProps q [] = q := rfl

theorem updateProps_cons (q : Props) (k v : String) (rest : Props) :
    updateProps q ((k, v) :: rest) = updateProps (dictInsert q k v) rest := rfl

theorem lastBind_nil (k : String) : lastBind [] k = none := rfl

theorem lastBind_cons_ne (k v : String) (rest : Props) (k' : String) (h : k ≠ k') :
    lastBind ((k, v) :: rest) k' = lastBind rest k' := by
  unfold lastBind
  simp [List.filter_cons, h]

theorem lastBind_cons_eq (k v : String) (rest : Props) :
    lastBind ((k, v) :: rest) k =
      match lastBind rest k with
      | some w => some w
      | none => some v := by
  unfold lastBind
  rw [List.filter_cons, if_pos (by simp : decide ((k, v).1 = k) = true),
    List.getLast?_cons]
  cases hl : (List.filter (fun kv => decide (kv.1 = k)) rest).getLast? with
  | none => simp [hl]
  | some q => simp [hl]

theorem hasKey_updateProps_mono (q p : Props) (k : String) (h : hasKey q k = true) :
    hasKey (updateProps q p) k = true := by
  induction p generalizing q with
  | nil => exact h
  | cons kv rest ih =>
    obtain ⟨k', v'⟩ := kv
    rw [updateProps_cons]
    exact ih _ ((hasKey_dictInsert_iff q k' k v').mpr (Or.inl h))

theorem hasKey_updateProps_of_mem (q p : Props) :
    ∀ kv ∈ p, hasKey (updateProps q p) kv.1 = true := by
  induction p generalizing q with
  | nil => intro kv h; simp at h
  | cons kv0 rest ih =>
    intro kv h
    obtain ⟨k0, v0⟩ := kv0
    rw [updateProps_cons]
    rcases List.mem_cons.mp h with h' | h'
    · subst h'
      exact hasKey_updateProps_mono _ _ _
        ((hasKey_dictInsert_iff q k0 k0 v0).mpr (Or.inr rfl))
    · exact ih _ kv h'

theorem updateProps_of_presence (p q : Props)
    (hpres : ∀ kv ∈ p, hasKey q kv.1 = true) :
    updateProps q p = q.map (fun e =>
      match lastBind p e.1 with
      | some v => (e.1, v)
      | none => e) := by
  induction p generalizing q with
  | nil =>
    have hid : ∀ e ∈ q,
        (match lastBind [] e.1 with | some v => (e.1, v) | none => e) = e :=
      fun e _ => rfl
    rw [updateProps_nil, List.map_congr_left hid, List.map_id']
  | cons kv rest ih =>
    obtain ⟨k, v⟩ := kv
    rw [updateProps_cons]
    have hk : hasKey q k = true := hpres (k, v) (List.mem_cons_self _ _)
    have hpres' : ∀ kv ∈ rest, hasKey (dictInsert q k v) kv.1 = true :=
      fun kv h => (hasKey_dictInsert_iff q k kv.1 v).mpr
        (Or.inl (hpres kv (List.mem_cons_of_mem _ h)))
    rw [ih _ hpres']
    have hrepl : dictInsert q k v = q.map (fun e => if e.1 = k then (k, v) else e) := by
      unfold dictInsert
      rw [if_pos hk]
    rw [hrepl, List.map_map]
    apply List.map_congr_left
    intro e _
    by_cases hek : e.1 = k
    · cases hlb : lastBind rest k with
      | some w => simp [Function.comp, if_pos hek, hek, lastBind_cons_eq, hlb]
      | none => simp [Function.comp, if_pos hek, hek, lastBind_cons_eq, hlb]
    · simp only [Function.comp, if_neg hek]
      rw [lastBind_cons_ne _ _ _ _ (fun he => hek he.symm)]

theorem mem_dictInsert_key_val {α : Type} (m : List (String × α)) (k : String) (v : α) :
    ∀ e ∈ dictInsert m k v, e.1 = k → e.2 = v := by
  intro e he hek
  unfold dictInsert at he
  split at he
  · rcases List.mem_map.mp he with ⟨q, hq, hfq⟩
    by_cases h : q.1 = k
    · rw [if_pos h] at hfq
      rw [← hfq]
    · rw [if_neg h] at hfq
      rw [← hfq] at hek
      exact absurd hek h
  · rename_i hnk
    rcases List.mem_append.mp he with h | h
    · exfalso
      apply hnk
      rw [← hek]
      exact hasKey_of_mem h
    · rw [List.mem_singleton.mp h]

theorem mem_updateProps_of_no_bind (p q : Props) :
    ∀ e ∈ updateProps q p, lastBind p e.1 = none → e ∈ q := by
  induction p generalizing q with
  | nil => intro e he _; exact he
  | cons kv rest ih =>
    obtain ⟨k, v⟩ := kv
    intro e he hnb
    rw [updateProps_cons] at he
    by_cases hek : k = e.1
    · exfalso
      rw [← hek, lastBind_cons_eq] at hnb
      cases hlb : lastBind rest k with
      | some w => rw [hlb] at hnb; cases hnb
      | none => rw [hlb] at hnb; cases hnb
    · rw [lastBind_cons_ne _ _ _ _ hek] at hnb
      rcases mem_dictInsert (ih _ e he hnb) with h | h
      · exact h
      · exfalso
        apply hek
        rw [h]

theorem updateProps_value (p q : Props) :
    ∀ e ∈ updateProps q p, ∀ w, lastBind p e.1 = some w → e.2 = w := by
  induction p generalizing q with
  | nil =>
    intro e _ w hw
    rw [lastBind_nil] at hw
    cases hw
  | cons kv rest ih =>
    obtain ⟨k, v⟩ := kv
    intro e he w hw
    rw [updateProps_cons] at he
    by_cases hek : k = e.1
    · rw [← hek, lastBind_cons_eq] at hw
      cases hlb : lastBind rest k with
      | some w' =>
        rw [hlb] at hw
        have hww : w' = w := by simpa using hw
        have hlb' : lastBind rest e.1 = some w := by
          rw [← hek, hlb, hww]
        exact ih _ e he w hlb'
      | none =>
        rw [hlb] at hw
        have hvw : v = w := by simpa using hw
        have hnb : lastBind rest e.1 = none := by rw [← hek]; exact hlb
        have hmem : e ∈ dictInsert q k v := mem_updateProps_of_no_bind rest _ e he hnb
        have he2 : e.2 = v := mem_dictInsert_key_val q k v e hmem hek.symm
        rw [he2, hvw]
    · have h' : lastBind rest e.1 = some w := by
        rw [lastBind_cons_ne _ _ _ _ hek] at hw
        exact hw
      exact ih _ e he w h'

/-- The key idempotence fact behind `MERGE ... SET += `: applying the
same property update twice is the same as applying it once. -/
theorem updateProps_idem (q p : Props) :
    updateProps (updateProps q p) p = updateProps q p := by
  rw [updateProps_of_presence p (updateProps q p) (hasKey_updateProps_of_mem q p)]
  have hid : ∀ e ∈ updateProps q p,
      (match lastBind p e.1 with | some v => (e.1, v) | none => e) = e := by
    intro e he
    cases hlb : lastBind p e.1 with
    | none => rfl
    | some w =>
      have hv := updateProps_value p q e he w hlb
      show (e.1, w) = e
      rw [← hv]
  rw [List.map_congr_left hid, List.map_id']

/-! ## Claim C7: node-pass lemmas -/

theorem hasNodeKey_iff (ns : List StoreNode) (l i : String) :
    hasNodeKey ns l i = true ↔ ∃ n ∈ ns, n.label = l ∧ n.id = i := by
  unfold hasNodeKey
  rw [List.any_eq_true]
  simp only [decide_eq_true_eq]

theorem mergeNodeOp_mono (ns : List StoreNode) (l i : String) (p : Props)
    (l' i' : String) (h : hasNodeKey ns l' i' = true) :
    hasNodeKey (mergeNodeOp ns l i p) l' i' = true := by
  unfold mergeNodeOp
  split
  · rw [hasNodeKey_iff] at h ⊢
    rcases h with ⟨n, hn, hli⟩
    refine ⟨_, List.mem_map_of_mem _ hn, ?_⟩
    by_cases hc : n.label = l ∧ n.id = i
    · rw [if_pos hc]; exact hli
    · rw [if_neg hc]; exact hli
  · rw [hasNodeKey_iff] at h ⊢
    rcases h with ⟨n, hn, hli⟩
    exact ⟨n, List.mem_append_left _ hn, hli⟩

theorem mergeNodeOp_self (ns : List StoreNode) (l i : String) (p : Props) :
    hasNodeKey (mergeNodeOp ns l i p) l i = true := by
  unfold mergeNodeOp
  split
  · rename_i h
    rw [hasNodeKey_iff] at h ⊢
    rcases h with ⟨n, hn, hli⟩
    refine ⟨_, List.mem_map_of_mem _ hn, ?_⟩
    rw [if_pos hli]
    exact hli
  · rw [hasNodeKey_iff]
    exact ⟨⟨l, i, updateProps [] p⟩,
      List.mem_append_right _ (List.mem_singleton.mpr rfl), rfl, rfl⟩

theorem nodesFold_cons (ns : List StoreNode) (n : LoadNode) (g : List LoadNode) :
    nodesFold ns (n :: g) = nodesFold (mergeNodeOp ns n.label n.id n.properties) g := rfl

theorem nodesFold_mono (g : List LoadNode) (ns : List StoreNode) (l i : String)
    (h : hasNodeKey ns l i = true) : hasNodeKey (nodesFold ns g) l i = true := by
  induction g generalizing ns with
  | nil => exact h
  | cons n0 rest ih =>
    rw [nodesFold_cons]
    exact ih _ (mergeNodeOp_mono _ _ _ _ _ _ h)

theorem nodesFold_presence (g : List LoadNode) (ns : List StoreNode) :
    ∀ n ∈ g, hasNodeKey (nodesFold ns g) n.label n.id = true := by
  induction g generalizing ns with
  | nil => intro n h; simp at h
  | cons n0 rest ih =>
    intro n h
    rw [nodesFold_cons]
    rcases List.mem_cons.mp h with h' | h'
    · subst h'
      exact nodesFold_mono rest _ _ _ (mergeNodeOp_self ns n.label n.id n.properties)
    · exact ih _ n h'

theorem mem_mergeNodeOp_of_no_match (ns : List StoreNode) (l i : String) (p : Props) :
    ∀ sn ∈ mergeNodeOp ns l i p, ¬(sn.label = l ∧ sn.id = i) → sn ∈ ns := by
  intro sn hsn hnm
  unfold mergeNodeOp at hsn
  split at hsn
  · rcases List.mem_map.mp hsn with ⟨q, hq, hfq⟩
    by_cases hc : q.label = l ∧ q.id = i
    · rw [if_pos hc] at hfq
      exfalso
      apply hnm
      rw [← hfq]
      exact hc
    · rw [if_neg hc] at hfq
      rw [← hfq]
      exact hq
  · rcases List.mem_append.mp hsn with h | h
    · exact h
    · exfalso
      apply hnm
      rw [List.mem_singleton.mp h]
      exact ⟨rfl, rfl⟩

theorem mem_nodesFold_of_no_match (g : List LoadNode) (ns : List StoreNode) :
    ∀ sn ∈ nodesFold ns g,
      (∀ n ∈ g, ¬(sn.label = n.label ∧ sn.id = n.id)) → sn ∈ ns := by
  induction g generalizing ns with
  | nil => intro sn h _; exact h
  | cons n0 rest ih =>
    intro sn hsn hnm
    rw [nodesFold_cons] at hsn
    have h1 := ih _ sn hsn (fun n hn => hnm n (List.mem_cons_of_mem _ hn))
    exact mem_mergeNodeOp_of_no_match _ _ _ _ sn h1 (hnm n0 (List.mem_cons_self _ _))

theorem mergeNodeOp_final (ns : List StoreNode) (l i : String) (p : Props) :
    ∀ sn ∈ mergeNodeOp ns l i p, (sn.label = l ∧ sn.id = i) →
      updateProps sn.props p = sn.props := by
  intro sn hsn hm
  unfold mergeNodeOp at hsn
  split at hsn
  · rcases List.mem_map.mp hsn with ⟨q, hq, hfq⟩
    by_cases hc : q.label = l ∧ q.id = i
    · rw [if_pos hc] at hfq
      rw [← hfq]
      exact updateProps_idem q.props p
    · rw [if_neg hc] at hfq
      rw [← hfq] at hm
      exact absurd hm hc
  · rename_i hnk
    rcases List.mem_append.mp hsn with h | h
    · exfalso
      apply hnk
      rw [hasNodeKey_iff]
      exact ⟨sn, h, hm⟩
    · rw [List.mem_singleton.mp h]
      exact updateProps_idem [] p

theorem nodesFold_final (g : List LoadNode) (ns : List StoreNode)
    (hk : (g.map (fun n => (n.label, n.id))).Nodup) :
    ∀ sn ∈ nodesFold ns g, ∀ n ∈ g, (sn.label = n.label ∧ sn.id = n.id) →
      updateProps sn.props n.properties = sn.props := by
  induction g generalizing ns with
  | nil => intro sn _ n hn; simp at hn
  | cons n0 rest ih =>
    rw [List.map_cons, List.nodup_cons] at hk
    intro sn hsn n hn hm
    rw [nodesFold_cons] at hsn
    rcases List.mem_cons.mp hn with h' | h'
    · subst h'
      have hno : ∀ n' ∈ rest, ¬(sn.label = n'.label ∧ sn.id = n'.id) := by
        intro n' hn' hc
        apply hk.1
        have he : (n.label, n.id) = (n'.label, n'.id) := by
          rw [← hm.1, ← hm.2, hc.1, hc.2]
        rw [he]
        exact List.mem_map_of_mem _ hn'
      have hsn0 : sn ∈ mergeNodeOp ns n.label n.id n.properties :=
        mem_nodesFold_of_no_match rest _ sn hsn hno
      exact mergeNodeOp_final _ _ _ _ sn hsn0 hm
    · exact ih _ hk.2 sn hsn n h' hm

theorem mergeNodeOp_id (ns : List StoreNode) (l i : String) (p : Props)
    (hpres : hasNodeKey ns l i = true)
    (hfinal : ∀ sn ∈ ns, (sn.label = l ∧ sn.id = i) →
      updateProps sn.props p = sn.props) :
    mergeNodeOp ns l i p = ns := by
  unfold mergeNodeOp
  rw [if_pos hpres]
  have hid : ∀ sn ∈ ns,
      (if sn.label = l ∧ sn.id = i
        then { sn with props := updateProps sn.props p } else sn) = sn := by
    intro sn hsn
    by_cases hc : sn.label = l ∧ sn.id = i
    · rw [if_pos hc, hfinal sn hsn hc]
    · rw [if_neg hc]
  rw [List.map_congr_left hid, List.map_id']

theorem nodesFold_idem (g : List LoadNode) (ns : List StoreNode)
    (hk : (g.map (fun n => (n.label, n.id))).Nodup) :
    nodesFold (nodesFold ns g) g = nodesFold ns g := by
  have hstep : ∀ n ∈ g,
      mergeNodeOp (nodesFold ns g) n.label n.id n.properties = nodesFold ns g := by
    intro n hn
    apply mergeNodeOp_id
    · exact nodesFold_presence g ns n hn
    · intro sn hsn hm
      exact nodesFold_final g ns hk sn hsn n hn hm
  have hconst : ∀ (l : List LoadNode),
      (∀ n ∈ l, mergeNodeOp (nodesFold ns g) n.label n.id n.properties = nodesFold ns g) →
      nodesFold (nodesFold ns g) l = nodesFold ns g := by
    intro l
    induction l with
    | nil => intro _; rfl
    | cons n0 rest ih =>
      intro h
      rw [nodesFold_cons, h n0 (List.mem_cons_self _ _)]
      exact ih (fun n hn => h n (List.mem_cons_of_mem _ hn))
  exact hconst g hstep

/-! ## Claim C7: relationship-pass lemmas -/

theorem hasRelKey_iff (R : List StoreRel) (k : RelRef) :
    hasRelKey R k = true ↔
      ∃ r ∈ R, r.type = k.1 ∧ r.startRef = k.2.1 ∧ r.endRef = k.2.2 := by
  unfold hasRelKey relMatch
  rw [List.any_eq_true]
  simp only [decide_eq_true_eq]

theorem relUpsert_mono (R : List StoreRel) (k : RelRef) (p : Props) (k' : RelRef)
    (h : hasRelKey R k' = true) : hasRelKey (relUpsert R k p) k' = true := by
  unfold relUpsert
  split
  · rw [hasRelKey_iff] at h ⊢
    rcases h with ⟨r, hr, hm⟩
    refine ⟨_, List.mem_map_of_mem _ hr, ?_⟩
    by_cases hc : r.type = k.1 ∧ r.startRef = k.2.1 ∧ r.endRef = k.2.2
    · rw [if_pos hc]; exact hm
    · rw [if_neg hc]; exact hm
  · rw [hasRelKey_iff] at h ⊢
    rcases h with ⟨r, hr, hm⟩
    exact ⟨r, List.mem_append_left _ hr, hm⟩

theorem relUpsert_self (R : List StoreRel) (k : RelRef) (p : Props) :
    hasRelKey (relUpsert R k p) k = true := by
  unfold relUpsert
  split
  · rename_i h
    rw [hasRelKey_iff] at h ⊢
    rcases h with ⟨r, hr, hm⟩
    refine ⟨_, List.mem_map_of_mem _ hr, ?_⟩
    rw [if_pos hm]
    exact hm
  · rw [hasRelKey_iff]
    exact ⟨⟨k.1, k.2.1, k.2.2, updateProps [] p⟩,
      List.mem_append_right _ (List.mem_singleton.mpr rfl), rfl, rfl, rfl⟩

theorem relStep_some (N : List StoreNode) (R : List StoreRel) (r : LoadRel) (k : RelRef)
    (h : resolveKey N r.type r.start_node_id r.end_node_id = some k) :
    relStep N R r = relUpsert R k r.properties := by
  unfold relStep
  rw [h]

theorem relStep_none (N : List StoreNode) (R : List StoreRel) (r : LoadRel)
    (h : resolveKey N r.type r.start_node_id r.end_node_id = none) :
    relStep N R r = R := by
  unfold relStep
  rw [h]

theorem relStep_mono (N : List StoreNode) (R : List StoreRel) (r : LoadRel) (k' : RelRef)
    (h : hasRelKey R k' = true) : hasRelKey (relStep N R r) k' = true := by
  cases hres : resolveKey N r.type r.start_node_id r.end_node_id with
  | some k => rw [relStep_some _ _ _ _ hres]; exact relUpsert_mono _ _ _ _ h
  | none => rw [relStep_none _ _ _ hres]; exact h

theorem relFold_mono (g : List LoadRel) (N : List StoreNode) (R : List StoreRel)
    (k : RelRef) (h : hasRelKey R k = true) :
    hasRelKey (g.foldl (relStep N) R) k = true := by
  induction g generalizing R with
  | nil => exact h
  | cons r0 rest ih =>
    rw [List.foldl_cons]
    exact ih _ (relStep_mono _ _ _ _ h)

theorem relFold_presence (g : List LoadRel) (N : List StoreNode) (R : List StoreRel) :
    ∀ r ∈ g, ∀ k, resolveKey N r.type r.start_node_id r.end_node_id = some k →
      hasRelKey (g.foldl (relStep N) R) k = true := by
  induction g generalizing R with
  | nil => intro r hr; simp at hr
  | cons r0 rest ih =>
    intro r hr k hres
    rw [List.foldl_cons]
    rcases List.mem_cons.mp hr with h' | h'
    · subst h'
      apply relFold_mono
      rw [relStep_some _ _ _ _ hres]
      exact relUpsert_self _ _ _
    · exact ih _ r h' k hres

theorem mem_relUpsert_of_no_match (R : List StoreRel) (k : RelRef) (p : Props) :
    ∀ sr ∈ relUpsert R k p,
      ¬(sr.type = k.1 ∧ sr.startRef = k.2.1 ∧ sr.endRef = k.2.2) → sr ∈ R := by
  intro sr hsr hnm
  unfold relUpsert at hsr
  split at hsr
  · rcases List.mem_map.mp hsr with ⟨q, hq, hfq⟩
    by_cases hc : q.type = k.1 ∧ q.startRef = k.2.1 ∧ q.endRef = k.2.2
    · rw [if_pos hc] at hfq
      exfalso
      apply hnm
      rw [← hfq]
      exact hc
    · rw [if_neg hc] at hfq
      rw [← hfq]
      exact hq
  · rcases List.mem_append.mp hsr with h | h
    · exact h
    · exfalso
      apply hnm
      rw [List.mem_singleton.mp h]
      exact ⟨rfl, rfl, rfl⟩

theorem mem_relStep_of_no_match (N : List StoreNode) (R : List StoreRel) (r : LoadRel) :
    ∀ sr ∈ relStep N R r,
      (∀ k, resolveKey N r.type r.start_node_id r.end_node_id = some k →
        ¬(sr.type = k.1 ∧ sr.startRef = k.2.1 ∧ sr.endRef = k.2.2)) → sr ∈ R := by
  intro sr hsr hnm
  cases hres : resolveKey N r.type r.start_node_id r.end_node_id with
  | some k =>
    rw [relStep_some _ _ _ _ hres] at hsr
    exact mem_relUpsert_of_no_match _ _ _ sr hsr (hnm k hres)
  | none =>
    rw [relStep_none _ _ _ hres] at hsr
    exact hsr

theorem mem_relFold_of_no_match (g : List LoadRel) (N : List StoreNode)
    (R : List StoreRel) :
    ∀ sr ∈ g.foldl (relStep N) R,
      (∀ r ∈ g, ∀ k, resolveKey N r.type r.start_node_id r.end_node_id = some k →
        ¬(sr.type = k.1 ∧ sr.startRef = k.2.1 ∧ sr.endRef = k.2.2)) → sr ∈ R := by
  induction g generalizing R with
  | nil => intro sr h _; exact h
  | cons r0 rest ih =>
    intro sr hsr hnm
    rw [List.foldl_cons] at hsr
    have h1 := ih _ sr hsr (fun r hr => hnm r (List.mem_cons_of_mem _ hr))
    exact mem_relStep_of_no_match _ _ _ sr h1 (hnm r0 (List.mem_cons_self _ _))

theorem relUpsert_final (R : List StoreRel) (k : RelRef) (p : Props) :
    ∀ sr ∈ relUpsert R k p,
      (sr.type = k.1 ∧ sr.startRef = k.2.1 ∧ sr.endRef = k.2.2) →
      updateProps sr.props p = sr.props := by
  intro sr hsr hm
  unfold relUpsert at hsr
  split at hsr
  · rcases List.mem_map.mp hsr with ⟨q, hq, hfq⟩
    by_cases hc : q.type = k.1 ∧ q.startRef = k.2.1 ∧ q.endRef = k.2.2
    · rw [if_pos hc] at hfq
      rw [← hfq]
      exact updateProps_idem q.props p
    · rw [if_neg hc] at hfq
      rw [← hfq] at hm
      exact absurd hm hc
  · rename_i hnk
    rcases List.mem_append.mp hsr with h | h
    · exfalso
      apply hnk
      rw [hasRelKey_iff]
      exact ⟨sr, h, hm⟩
    · rw [List.mem_singleton.mp h]
      exact updateProps_idem [] p

theorem relKey_unique {k k' : RelRef} {sr : StoreRel}
    (h1 : sr.type = k.1 ∧ sr.startRef = k.2.1 ∧ sr.endRef = k.2.2)
    (h2 : sr.type = k'.1 ∧ sr.startRef = k'.2.1 ∧ sr.endRef = k'.2.2) : k = k' := by
  obtain ⟨a, b, c⟩ := h1
  obtain ⟨a', b', c'⟩ := h2
  have h3 : k = (sr.type, sr.startRef, sr.endRef) := by rw [a, b, c]
  have h4 : k' = (sr.type, sr.startRef, sr.endRef) := by rw [a', b', c']
  rw [h3, h4]

theorem resolveKey_triple (N : List StoreNode) (t s e : String) (k : RelRef)
    (h : resolveKey N t s e = some k) :
    k.1 = t ∧ k.2.1.2 = s ∧ k.2.2.2 = e := by
  unfold resolveKey at h
  cases ha : findNodeById N s with
  | none => rw [ha] at h; cases h
  | some a =>
    cases hb : findNodeById N e with
    | none => rw [ha, hb] at h; cases h
    | some b =>
      rw [ha, hb] at h
      injection h with h'
      subst h'
      refine ⟨rfl, ?_, ?_⟩
      · have ha' : N.find? (fun n => decide (n.id = s)) = some a := ha
        have := List.find?_some ha'
        simpa using this
      · have hb' : N.find? (fun n => decide (n.id = e)) = some b := hb
        have := List.find?_some hb'
        simpa using this

theorem relFold_final (g : List LoadRel) (N : List StoreNode) (R : List StoreRel)
    (hk : (g.map (fun r => (r.type, r.start_node_id, r.end_node_id))).Nodup) :
    ∀ sr ∈ g.foldl (relStep N) R, ∀ r ∈ g, ∀ k,
      resolveKey N r.type r.start_node_id r.end_node_id = some k →
      (sr.type = k.1 ∧ sr.startRef = k.2.1 ∧ sr.endRef = k.2.2) →
      updateProps sr.props r.properties = sr.props := by
  induction g generalizing R with
  | nil => intro sr _ r hr; simp at hr
  | cons r0 rest ih =>
    rw [List.map_cons, List.nodup_cons] at hk
    intro sr hsr r hr k hres hm
    rw [List.foldl_cons] at hsr
    rcases List.mem_cons.mp hr with h' | h'
    · subst h'
      have hno : ∀ r' ∈ rest, ∀ k',
          resolveKey N r'.type r'.start_node_id r'.end_node_id = some k' →
          ¬(sr.type = k'.1 ∧ sr.startRef = k'.2.1 ∧ sr.endRef = k'.2.2) := by
        intro r' hr' k' hres' hm'
        have hkk : k = k' := relKey_unique hm hm'
        apply hk.1
        have ht : (r.type, r.start_node_id, r.end_node_id) =
            (r'.type, r'.start_node_id, r'.end_node_id) := by
          have t1 := resolveKey_triple N r.type r.start_node_id r.end_node_id k hres
          have t2 := resolveKey_triple N r'.type r'.start_node_id r'.end_node_id k' hres'
          rw [← t1.1, ← t1.2.1, ← t1.2.2, hkk, t2.1, t2.2.1, t2.2.2]
        rw [ht]
        exact List.mem_map_of_mem _ hr'
      have hsr0 : sr ∈ relStep N R r := mem_relFold_of_no_match rest N _ sr hsr hno
      rw [relStep_some N R r k hres] at hsr0
      exact relUpsert_final R k r.properties sr hsr0 hm
    · exact ih _ hk.2 sr hsr r h' k hres hm

theorem relUpsert_id (R : List StoreRel) (k : RelRef) (p : Props)
    (hpres : hasRelKey R k = true)
    (hfinal : ∀ sr ∈ R,
      (sr.type = k.1 ∧ sr.startRef = k.2.1 ∧ sr.endRef = k.2.2) →
      updateProps sr.props p = sr.props) :
    relUpsert R k p = R := by
  unfold relUpsert
  rw [if_pos hpres]
  have hid : ∀ sr ∈ R,
      (if sr.type = k.1 ∧ sr.startRef = k.2.1 ∧ sr.endRef = k.2.2
        then { sr with props := updateProps sr.props p } else sr) = sr := by
    intro sr hsr
    by_cases hc : sr.type = k.1 ∧ sr.startRef = k.2.1 ∧ sr.endRef = k.2.2
    · rw [if_pos hc, hfinal sr hsr hc]
    · rw [if_neg hc]
  rw [List.map_congr_left hid, List.map_id']

theorem relFold_idem (g : List LoadRel) (N : List StoreNode) (R : List StoreRel)
    (hk : (g.map (fun r => (r.type, r.start_node_id, r.end_node_id))).Nodup) :
    g.foldl (relStep N) (g.foldl (relStep N) R) = g.foldl (relStep N) R := by
  have hstep : ∀ r ∈ g, relStep N (g.foldl (relStep N) R) r = g.foldl (relStep N) R := by
    intro r hr
    cases hres : resolveKey N r.type r.start_node_id r.end_node_id with
    | none => exact relStep_none _ _ _ hres
    | some k =>
      rw [relStep_some _ _ _ _ hres]
      apply relUpsert_id
      · exact relFold_presence g N R r hr k hres
      · intro sr hsr hm
        exact relFold_final g N R hk sr hsr r hr k hres hm
  have hconst : ∀ (l : List LoadRel),
      (∀ r ∈ l, relStep N (g.foldl (relStep N) R) r = g.foldl (relStep N) R) →
      l.foldl (relStep N) (g.foldl (relStep N) R) = g.foldl (relStep N) R := by
    intro l
    induction l with
    | nil => intro _; rfl
    | cons r0 rest ih =>
      intro h
      rw [List.foldl_cons, h r0 (List.mem_cons_self _ _)]
      exact ih (fun r hr => h r (List.mem_cons_of_mem _ hr))
  exact hconst g hstep

theorem mergeRelOp_eq (N : List StoreNode) (R : List StoreRel) (t s e : String)
    (p : Props) :
    mergeRelOp ⟨N, R⟩ t s e p = ⟨N, relStep N R ⟨t, s, e, p⟩⟩ := by
  cases h : resolveKey N t s e with
  | some k => simp [mergeRelOp, relStep, h]
  | none => simp [mergeRelOp, relStep, h]

theorem relsFold_eq (g : List LoadRel) (N : List StoreNode) (R : List StoreRel) :
    relsFold ⟨N, R⟩ g = ⟨N, g.foldl (relStep N) R⟩ := by
  induction g generalizing R with
  | nil => rfl
  | cons r rest ih =>
    show relsFold (mergeRelOp ⟨N, R⟩ r.type r.start_node_id r.end_node_id r.properties)
      rest = _
    have h1 : mergeRelOp ⟨N, R⟩ r.type r.start_node_id r.end_node_id r.properties =
        ⟨N, relStep N R r⟩ :=
      mergeRelOp_eq N R r.type r.start_node_id r.end_node_id r.properties
    rw [h1]
    exact ih _

/-- C7: loading the same well-formed consolidated graph twice with the
writer's MERGE-based upsert protocol leaves the store exactly as after
loading it once — in particular node and relationship counts are
unchanged by the second load, and no duplicate node or edge is created.
Well-formedness (distinct node keys, distinct relationship triples) is
what `merge_graphs` guarantees of the consolidated graph. -/
theorem c7_load_idempotent (st : GraphStore) (g : LoadGraph) (h : g.wf) :
    writerRun (writerRun st g) g = writerRun st g ∧
    (writerRun (writerRun st g) g).nodes.length = (writerRun st g).nodes.length ∧
    (writerRun (writerRun st g) g).rels.length = (writerRun st g).rels.length := by
  obtain ⟨hkn, hkr⟩ := h
  have h1 : writerRun st g =
      ⟨nodesFold st.nodes g.nodes,
       g.relationships.foldl (relStep (nodesFold st.nodes g.nodes)) st.rels⟩ := by
    show relsFold { st with nodes := nodesFold st.nodes g.nodes } g.relationships = _
    exact relsFold_eq g.relationships (nodesFold st.nodes g.nodes) st.rels
  have hmain : writerRun (writerRun st g) g = writerRun st g := by
    have h2 : writerRun (writerRun st g) g =
        ⟨nodesFold (writerRun st g).nodes g.nodes,
         g.relationships.foldl (relStep (nodesFold (writerRun st g).nodes g.nodes))
           (writerRun st g).rels⟩ := by
      show relsFold
        { writerRun st g with nodes := nodesFold (writerRun st g).nodes g.nodes }
        g.relationships = _
      exact relsFold_eq _ _ _
    have hN : (writerRun st g).nodes = nodesFold st.nodes g.nodes := by rw [h1]
    have hR : (writerRun st g).rels =
        g.relationships.foldl (relStep (nodesFold st.nodes g.nodes)) st.rels := by
      rw [h1]
    rw [h2, hN, hR, nodesFold_idem g.nodes st.nodes hkn,
      relFold_idem g.relationships (nodesFold st.nodes g.nodes) st.rels hkr]
    exact h1.symm
  exact ⟨hmain, by rw [hmain], by rw [hmain]⟩

/-- C7 witness: a two-node, one-edge consolidated graph loaded twice
into an empty store. -/
theorem c7_witness :
    (LoadGraph.wf
      ⟨[⟨"Company_acme", "Company", [("name", "Acme")]⟩,
        ⟨"Report_r1", "Report", [("name", "r1")]⟩],
       [⟨"HAS_REPORT", "Company_acme", "Report_r1", []⟩]⟩) ∧
    (writerRun (writerRun ⟨[], []⟩
        ⟨[⟨"Company_acme", "Company", [("name", "Acme")]⟩,
          ⟨"Report_r1", "Report", [("name", "r1")]⟩],
         [⟨"HAS_REPORT", "Company_acme", "Report_r1", []⟩]⟩)
        ⟨[⟨"Company_acme", "Company", [("name", "Acme")]⟩,
          ⟨"Report_r1", "Report", [("name", "r1")]⟩],
         [⟨"HAS_REPORT", "Company_acme", "Report_r1", []⟩]⟩ =
      writerRun ⟨[], []⟩
        ⟨[⟨"Company_acme", "Company", [("name", "Acme")]⟩,
          ⟨"Report_r1", "Report", [("name", "r1")]⟩],
         [⟨"HAS_REPORT", "Company_acme", "Report_r1", []⟩]⟩) :=
  ⟨by decide,
   (c7_load_idempotent ⟨[], []⟩
     ⟨[⟨"Company_acme", "Company", [("name", "Acme")]⟩,
       ⟨"Report_r1", "Report", [("name", "r1")]⟩],
      [⟨"HAS_REPORT", "Company_acme", "Report_r1", []⟩]⟩ (by decide)).1⟩

end Spec2Proof
